import Mathlib

/-!
Shallow embedding of the chunked PII analysis pipeline of this repository
(`app/tasks/pii_tasks.py`, `app/services/deep_analysis_service.py`,
`app/api/routes/pii.py`) and verification of the frozen claims about it.

Python strings are modelled as `List Char`, machine integers as `Nat`
(the repository stores counters as decimal strings and converts with
`int(...)`/`str(...)`; that round trip is the identity on naturals and is
modelled away), database rows as Lean structures, and the external LLM
service as an oracle function from call site to outcome.  Wall-clock
sleeps, timestamps and timing statistics columns are not modelled: they
do not feed back into any control flow or any claim.
-/

namespace PII

/-! ## Embedded definitions (translated from the source) -/

structure ChunkSettings where
  size : Nat
  overlap : Nat
  deriving DecidableEq, Repr

def MODEL_CHUNK_SIZES (model : String) : Option ChunkSettings :=
  if model = "gpt-3.5-turbo" then some ⟨12000, 2000⟩
  else if model = "gpt-4-turbo" then some ⟨60000, 10000⟩
  else if model = "gpt-4o" then some ⟨60000, 10000⟩
  else if model = "gpt-4o-mini" then some ⟨60000, 10000⟩
  else if model = "claude-3-opus" then some ⟨80000, 15000⟩
  else if model = "claude-3-sonnet" then some ⟨80000, 15000⟩
  else if model = "claude-3-haiku" then some ⟨40000, 8000⟩
  else none

def DEFAULT_CHUNK_SIZE : Nat := 60000

def DEFAULT_CHUNK_OVERLAP : Nat := 10000

def MAX_RETRIES : Nat := 3

def get_chunk_settings (model : String) : ChunkSettings :=
  (MODEL_CHUNK_SIZES model).getD ⟨DEFAULT_CHUNK_SIZE, DEFAULT_CHUNK_OVERLAP⟩

structure Chunk where
  index : Nat
  start : Nat
  «end» : Nat
  text : List Char
  deriving DecidableEq, Repr

def createChunksGo (text : List Char) (chunk_size chunk_overlap : Nat) :
    Nat → Nat → Nat → List Chunk
  | 0, _, _ => []
  | fuel + 1, start, chunk_index =>
    if start < text.length then
      let e := min (start + chunk_size) text.length
      let c : Chunk := ⟨chunk_index, start, e, (text.drop start).take (e - start)⟩
      if text.length ≤ e then [c]
      else c :: createChunksGo text chunk_size chunk_overlap fuel
        (start + chunk_size - chunk_overlap) (chunk_index + 1)
    else []

def create_chunks (text : List Char) (model : String) : List Chunk :=
  let settings := get_chunk_settings model
  let chunk_size := settings.size
  let chunk_overlap := settings.overlap
  if text.length ≤ chunk_size then
    [⟨0, 0, text.length, text⟩]
  else
    createChunksGo text chunk_size chunk_overlap text.length 0 0

def adjOverlap (ov : Nat) : List Chunk → Prop
  | a :: b :: rest => a.«end» = b.start + ov ∧ adjOverlap ov (b :: rest)
  | _ => True

def PlanContract (sz ov len : Nat) (cs : List Chunk) : Prop :=
  cs ≠ [] ∧
  (∀ c ∈ cs.head?, c.start = 0) ∧
  (∀ c ∈ cs.getLast?, c.«end» = len) ∧
  (∀ c ∈ cs, c.«end» - c.start ≤ sz) ∧
  adjOverlap ov cs ∧
  cs.map Chunk.index = List.range cs.length ∧
  (∀ p, p < len → ∃ c ∈ cs, c.start ≤ p ∧ p < c.«end»)

inductive ChunksFrom (sz ov len : Nat) : Nat → Nat → List Chunk → Prop
  | last (i s : Nat) (txt : List Char) (hs : s < len) (hle : len ≤ s + sz) :
      ChunksFrom sz ov len i s [⟨i, s, len, txt⟩]
  | step (i s : Nat) (txt : List Char) (rest : List Chunk)
      (hlt : s + sz < len)
      (h : ChunksFrom sz ov len (i + 1) (s + sz - ov) rest) :
      ChunksFrom sz ov len i s (⟨i, s, s + sz, txt⟩ :: rest)

inductive CStatus
  | pending
  | processing
  | completed
  | failed
  deriving DecidableEq, Repr

structure ChunkRow where
  chunk_index : Nat
  total_chunks : Nat
  start_char : Nat
  end_char : Nat
  status : CStatus
  retry_count : Nat
  max_retries : Nat
  llm_response : Option String
  error_message : Option String
  error_code : Option String
  deriving DecidableEq, Repr

structure AnalysisState where
  status : String
  is_paused : Bool
  pause_reason : Option String
  is_chunked : Bool
  llm_model : Option String
  total_chunks : Nat
  completed_chunks : Nat
  failed_chunks : Nat
  llm_response : Option String
  consolidated_response : Option String
  chunks : List ChunkRow
  deriving DecidableEq, Repr

inductive LLMOutcome
  | ok (response : String)
  | err (message : String)
  deriving DecidableEq, Repr

def startsWithChars : List Char → List Char → Bool
  | [], _ => true
  | _ :: _, [] => false
  | p :: ps, c :: cs => p == c && startsWithChars ps cs

def containsChars (pat : List Char) : List Char → Bool
  | [] => startsWithChars pat []
  | c :: cs => startsWithChars pat (c :: cs) || containsChars pat cs

def is_rate_limit (error_message : String) : Bool :=
  containsChars "429".toList error_message.toList
    || containsChars "rate_limit".toList (error_message.toList.map Char.toLower)

def strTake (n : Nat) (s : String) : String :=
  ⟨s.toList.take n⟩

def errStr : Option String → String
  | some e => e
  | none => "None"

def pausedMsg (mr : Nat) : String :=
  "Pausado: rate limit após " ++ toString mr ++
    " tentativas. Considere usar GPT-3.5-turbo."

def partialPauseMsg (f : Nat) : String :=
  toString f ++ " chunks falharam. Pode continuar com outro modelo."

def modelOf (o : Option String) : String :=
  match o with
  | some m => if m = "" then "gpt-4-turbo" else m
  | none => "gpt-4-turbo"

def chunkRetryLoop (oracle : Nat → Nat → LLMOutcome) :
    Nat → Nat → ChunkRow → AnalysisState → Option String →
      ChunkRow × AnalysisState × Bool × Option String
  | 0, _, row, st, last_error => (row, st, false, last_error)
  | fuel + 1, retry_count, row, st, last_error =>
    match oracle row.chunk_index retry_count with
    | .ok response =>
      let row := { row with
        llm_response := some response,
        status := .completed,
        retry_count := retry_count,
        error_message := none,
        error_code := none }
      let st := { st with completed_chunks := st.completed_chunks + 1 }
      (row, st, true, last_error)
    | .err e =>
      let retry_count := retry_count + 1
      let row := { row with
        retry_count := retry_count,
        error_message := some (strTake 500 e) }
      if is_rate_limit e then
        let row := { row with error_code := some "RATE_LIMIT" }
        let st := { st with pause_reason := none }
        chunkRetryLoop oracle fuel retry_count row st (some e)
      else
        let row := { row with error_code := some "UNKNOWN" }
        chunkRetryLoop oracle fuel retry_count row st (some e)

def setRow (rows : List ChunkRow) (r : ChunkRow) : List ChunkRow :=
  rows.map fun x => if x.chunk_index = r.chunk_index then r else x

def insertByIndex (r : ChunkRow) : List ChunkRow → List ChunkRow
  | [] => [r]
  | x :: xs =>
    if r.chunk_index ≤ x.chunk_index then r :: x :: xs
    else x :: insertByIndex r xs

def orderByChunkIndex : List ChunkRow → List ChunkRow
  | [] => []
  | x :: xs => insertByIndex x (orderByChunkIndex xs)

def isClaimableStatus (s : CStatus) : Bool :=
  s == .pending || s == .processing || s == .failed

def claimedRows (rows : List ChunkRow) : List ChunkRow :=
  orderByChunkIndex (rows.filter fun r => isClaimableStatus r.status)

inductive RunResult
  | pausedRes (failed_chunk : Nat)
  | partialRes (completed failed : Nat)
  | chunksCompleted
  deriving DecidableEq, Repr

def claimRow (rec : ChunkRow) : ChunkRow :=
  { rec with status := CStatus.processing }

def runLoop (oracle : Nat → Nat → LLMOutcome) :
    List ChunkRow → AnalysisState → AnalysisState × RunResult
  | [], st =>
    if st.failed_chunks > 0 ∧ st.completed_chunks > 0 then
      ({ st with
          status := "partial",
          pause_reason := some (partialPauseMsg st.failed_chunks) },
        .partialRes st.completed_chunks st.failed_chunks)
    else
      (st, .chunksCompleted)
  | rec :: rest, st =>
    let row := claimRow rec
    let st := { st with chunks := setRow st.chunks row }
    let result := chunkRetryLoop oracle (row.max_retries - row.retry_count)
      row.retry_count row st none
    let row := result.1
    let st := result.2.1
    let success := result.2.2.1
    let last_error := result.2.2.2
    let st := { st with chunks := setRow st.chunks row }
    if success then
      runLoop oracle rest st
    else
      let row := { row with
          status := CStatus.failed,
          error_message := some (strTake 500 (errStr last_error)) }
      let st := { st with
          chunks := setRow st.chunks row,
          failed_chunks := st.failed_chunks + 1 }
      if is_rate_limit (errStr last_error) then
        ({ st with
            is_paused := true,
            pause_reason := some (pausedMsg row.max_retries),
            status := "paused" },
          .pausedRes row.chunk_index)
      else
        runLoop oracle rest st

def planRow (total : Nat) (c : Chunk) : ChunkRow :=
  { chunk_index := c.index,
    total_chunks := total,
    start_char := c.start,
    end_char := c.«end»,
    status := .pending,
    retry_count := 0,
    max_retries := MAX_RETRIES,
    llm_response := none,
    error_message := none,
    error_code := none }

def initChunkedState (st0 : AnalysisState) (chat_text : List Char) :
    AnalysisState :=
  let model := modelOf st0.llm_model
  let chunks := create_chunks chat_text model
  let total_chunks := chunks.length
  let st := { st0 with
    is_chunked := true,
    total_chunks := total_chunks,
    completed_chunks := 0,
    failed_chunks := 0,
    status := "processing",
    is_paused := false,
    pause_reason := none }
  if st.chunks.length = 0 then
    { st with chunks := chunks.map (planRow total_chunks) }
  else
    st

def process_pii_analysis_chunked (oracle : Nat → Nat → LLMOutcome)
    (st0 : AnalysisState) (chat_text : List Char) :
    AnalysisState × RunResult :=
  let st := initChunkedState st0 chat_text
  runLoop oracle (claimedRows st.chunks) st

inductive ConsolidateResult
  | noCompletedChunks
  | completedOk
  | raised (message : String)
  deriving DecidableEq, Repr

def consolidate_pii_analysis (st : AnalysisState) (outcome : LLMOutcome) :
    AnalysisState × ConsolidateResult :=
  let chunks := orderByChunkIndex
    (st.chunks.filter fun r => r.status == CStatus.completed)
  if chunks.isEmpty then
    ({ st with
        status := "failed",
        llm_response := some "Nenhum chunk processado com sucesso" },
      .noCompletedChunks)
  else
    match outcome with
    | .ok final_response =>
      ({ st with
          consolidated_response := some final_response,
          llm_response := some final_response,
          status := "completed" },
        .completedOk)
    | .err e =>
      ({ st with
          status := "failed",
          llm_response := some ("Erro ao consolidar: " ++ e) },
        .raised e)

structure ResumeAnalysisRequest where
  new_model : Option String
  reset_failed_chunks : Bool
  deriving DecidableEq, Repr

def resume_analysis (st : AnalysisState) (req : ResumeAnalysisRequest) :
    Except String AnalysisState :=
  if st.status = "paused" ∨ st.status = "partial" ∨ st.status = "failed" then
    let st :=
      match req.new_model with
      | some m => if m = "" then st else { st with llm_model := some m }
      | none => st
    let st :=
      if req.reset_failed_chunks then
        { st with
          chunks := st.chunks.map fun c =>
            if c.status == CStatus.failed then
              { c with
                  status := .pending, retry_count := 0,
                  error_message := none, error_code := none }
            else c,
          failed_chunks := 0 }
      else st
    .ok { st with
        is_paused := false, pause_reason := none,
        status := "processing" }
  else
    .error ("Análise não pode ser retomada. Status atual: " ++ st.status)

def syncPlanRow (total : Nat) (c : Chunk) : ChunkRow :=
  { chunk_index := c.index,
    total_chunks := total,
    start_char := c.start,
    end_char := c.«end»,
    status := .pending,
    retry_count := 0,
    max_retries := 3,
    llm_response := none,
    error_message := none,
    error_code := none }

def syncRetryLoop (oracle : Nat → Nat → LLMOutcome) (pos : Nat) :
    Nat → Nat → ChunkRow → AnalysisState → Option String →
      ChunkRow × AnalysisState × Bool × Option String
  | 0, _, row, st, last_error => (row, st, false, last_error)
  | fuel + 1, retry_count, row, st, last_error =>
    match oracle pos retry_count with
    | .ok response =>
      let row := { row with
        llm_response := some response,
        status := .completed,
        retry_count := retry_count }
      let st := { st with completed_chunks := st.completed_chunks + 1 }
      (row, st, true, last_error)
    | .err e =>
      let retry_count := retry_count + 1
      let row := { row with retry_count := retry_count }
      syncRetryLoop oracle pos fuel retry_count row st (some e)

def syncProcessRows (oracle : Nat → Nat → LLMOutcome) :
    Nat → List ChunkRow → AnalysisState → List ChunkRow × AnalysisState
  | _, [], st => ([], st)
  | pos, rec :: rest, st =>
    let row := { rec with status := CStatus.processing }
    let result := syncRetryLoop oracle pos MAX_RETRIES 0 row st none
    let row := result.1
    let st := result.2.1
    let success := result.2.2.1
    let last_error := result.2.2.2
    let row :=
      if success then row
      else { row with
          status := CStatus.failed,
          error_message := some (errStr last_error) }
    let next := syncProcessRows oracle (pos + 1) rest st
    (row :: next.1, next.2)

inductive SyncResult
  | completedOk
  | errNoChunks
  | errConsolidate (message : String)
  deriving DecidableEq, Repr

def process_pii_analysis_sync (oracle : Nat → Nat → LLMOutcome)
    (consolidateOutcome : LLMOutcome) (st0 : AnalysisState)
    (chat_text : List Char) : AnalysisState × SyncResult :=
  let chunks := create_chunks chat_text "gpt-4-turbo"
  let total_chunks := chunks.length
  let st := { st0 with
    is_chunked := true,
    total_chunks := total_chunks,
    completed_chunks := 0,
    status := "processing" }
  let st := { st with
    chunks := st.chunks ++ chunks.map (syncPlanRow total_chunks) }
  let ordered := orderByChunkIndex st.chunks
  let processed := syncProcessRows oracle 0 ordered st
  let st := { processed.2 with chunks := processed.1 }
  let completedChunks := orderByChunkIndex
    (st.chunks.filter fun r => r.status == CStatus.completed)
  if completedChunks.isEmpty then
    ({ st with
        status := "failed",
        llm_response := some "Nenhum chunk processado com sucesso" },
      .errNoChunks)
  else
    match consolidateOutcome with
    | .ok final_response =>
      ({ st with
          consolidated_response := some final_response,
          llm_response := some final_response,
          status := "completed" },
        .completedOk)
    | .err e =>
      ({ st with
          status := "failed",
          llm_response := some ("Erro ao consolidar: " ++ e) },
        .errConsolidate e)

def CHUNK_SIZE_CHARS : Nat := 25000

def pySplit (sep : Char) : List Char → List (List Char)
  | [] => [[]]
  | c :: rest =>
    if c = sep then [] :: pySplit sep rest
    else
      match pySplit sep rest with
      | h :: t => (c :: h) :: t
      | [] => [[c]]

def pyJoin : List (List Char) → List Char
  | [] => []
  | [x] => x
  | x :: xs => x ++ '\n' :: pyJoin xs

def splitGo : List (List Char) → List (List Char) → Nat → List (List Char)
  | [], current, _ =>
    if current ≠ [] then [pyJoin current] else []
  | line :: rest, current, size =>
    if size + line.length > CHUNK_SIZE_CHARS ∧ current ≠ [] then
      pyJoin current :: splitGo rest [line] line.length
    else
      splitGo rest (current ++ [line]) (size + line.length + 1)

def split_into_chunks (text : List Char) : List (List Char) :=
  splitGo (pySplit '\n' text) [] 0

inductive DeepExtraction
  | parsed (value : String)
  | rawResponse (response : String)
  | errorResult (message : String)
  deriving DecidableEq, Repr

def extract_chunk (parse : String → Option String) (outcome : LLMOutcome) :
    DeepExtraction :=
  match outcome with
  | .ok response =>
    match parse response with
    | some v => .parsed v
    | none => .rawResponse response
  | .err e => .errorResult e

def refine_with_context (parse : String → Option String)
    (outcome : LLMOutcome) (current_extraction : DeepExtraction) :
    DeepExtraction :=
  match outcome with
  | .ok response =>
    match parse response with
    | some v => .parsed v
    | none => current_extraction
  | .err _ => current_extraction

def build_accumulated_context (previous_context : List Char)
    (new_extraction_json : List Char) (chunk_number : Nat) : List Char :=
  let new_summary := new_extraction_json.take 2000
  let new_context :=
    ("\n\n### Chunk " ++ toString chunk_number ++ ":\n").toList ++ new_summary
  let max_context_size := 8000
  let combined := previous_context ++ new_context
  if combined.length > max_context_size then
    combined.drop (combined.length - max_context_size)
  else
    combined

def consolidate_results (outcome : LLMOutcome) : String :=
  match outcome with
  | .ok response => response
  | .err e => "Erro na consolidação: " ++ e

structure DeepChunkRow where
  chunk_index : Nat
  status : String
  extraction_result : Option DeepExtraction
  refined_result : Option DeepExtraction
  deriving DecidableEq, Repr

structure DeepJob where
  status : String
  error_message : Option String
  total_chunks : Nat
  processed_chunks : Nat
  final_result : Option String
  intermediate_results : Option (List DeepExtraction)
  chunk_results : List DeepChunkRow
  deriving DecidableEq, Repr

def setDeepRow (rows : List DeepChunkRow) (r : DeepChunkRow) :
    List DeepChunkRow :=
  rows.map fun x => if x.chunk_index = r.chunk_index then r else x

def deepLoop (eo ro : Nat → LLMOutcome) (parse : String → Option String)
    (dumps : DeepExtraction → List Char) :
    List (List Char) → Nat → List Char → List DeepExtraction → DeepJob →
      DeepJob × List DeepExtraction
  | [], _, _, alls, job => (job, alls)
  | _chunk :: rest, i, accumulated_context, alls, job =>
    let row0 : DeepChunkRow := ⟨i, "processing", none, none⟩
    let job := { job with chunk_results := job.chunk_results ++ [row0] }
    let extraction := extract_chunk parse (eo i)
    let refined :=
      if accumulated_context ≠ [] ∧ i > 0 then
        refine_with_context parse (ro i) extraction
      else
        extraction
    let row := { row0 with
        extraction_result := some extraction,
        refined_result := some refined,
        status := "completed" }
    let job := { job with
        chunk_results := setDeepRow job.chunk_results row,
        processed_chunks := i + 1 }
    let accumulated_context :=
      build_accumulated_context accumulated_context (dumps refined) (i + 1)
    deepLoop eo ro parse dumps rest (i + 1) accumulated_context
      (alls ++ [refined]) job

def process_job (eo ro : Nat → LLMOutcome) (co : LLMOutcome)
    (parse : String → Option String) (dumps : DeepExtraction → List Char)
    (masked_chat_text : Option (List Char)) (job0 : DeepJob) : DeepJob :=
  let job := { job0 with status := "processing" }
  match masked_chat_text with
  | none =>
    { job with
        status := "failed",
        error_message := some "Job PII não possui texto mascarado" }
  | some text =>
    if text = [] then
      { job with
          status := "failed",
          error_message := some "Job PII não possui texto mascarado" }
    else
      let chunks := split_into_chunks text
      let job := { job with total_chunks := chunks.length }
      let result := deepLoop eo ro parse dumps chunks 0 [] [] job
      let job := result.1
      let alls := result.2
      let final_result := consolidate_results co
      { job with
          final_result := some final_result,
          intermediate_results := some alls,
          status := "completed" }

def idxLE (a b : ChunkRow) : Prop := a.chunk_index ≤ b.chunk_index

def isTerminal (s : CStatus) : Bool := s == .completed || s == .failed

def terminalCount (rows : List ChunkRow) : Nat :=
  (rows.filter fun r => isTerminal r.status).length

def freshAnalysis : AnalysisState :=
  { status := "pending", is_paused := false, pause_reason := none,
    is_chunked := false, llm_model := none, total_chunks := 0,
    completed_chunks := 0, failed_chunks := 0, llm_response := none,
    consolidated_response := none, chunks := [] }

def c2CompletedRow : ChunkRow :=
  { chunk_index := 0, total_chunks := 2, start_char := 0, end_char := 1,
    status := CStatus.completed, retry_count := 0, max_retries := 3,
    llm_response := some "r0", error_message := none, error_code := none }

def c2PendingRow : ChunkRow :=
  { chunk_index := 1, total_chunks := 2, start_char := 1, end_char := 2,
    status := CStatus.pending, retry_count := 0, max_retries := 3,
    llm_response := none, error_message := none, error_code := none }

def c2ResumeState : AnalysisState :=
  { status := "processing", is_paused := false, pause_reason := none,
    is_chunked := true, llm_model := none, total_chunks := 2,
    completed_chunks := 1, failed_chunks := 0, llm_response := none,
    consolidated_response := none,
    chunks := [c2CompletedRow, c2PendingRow] }

def freshDeepJob : DeepJob :=
  { status := "pending", error_message := none, total_chunks := 0,
    processed_chunks := 0, final_result := none,
    intermediate_results := none, chunk_results := [] }

/-! ## Verification -/

theorem overlap_lt_size (model : String) :
    (get_chunk_settings model).overlap < (get_chunk_settings model).size := by
  unfold get_chunk_settings MODEL_CHUNK_SIZES
  repeat' split
  all_goals decide

theorem createChunksGo_chunksFrom (text : List Char) (sz ov : Nat)
    (hov : ov < sz) :
    ∀ fuel s i, s < text.length → text.length ≤ s + fuel * (sz - ov) →
      ChunksFrom sz ov text.length i s (createChunksGo text sz ov fuel s i) := by
  intro fuel
  induction fuel with
  | zero =>
    intro s i hs hfuel
    simp at hfuel
    omega
  | succ fuel ih =>
    intro s i hs hfuel
    rw [createChunksGo]
    simp only [hs, if_true]
    by_cases hend : text.length ≤ s + sz
    · have he : min (s + sz) text.length = text.length :=
        Nat.min_eq_right hend
      simp only [he, le_refl, if_true]
      exact ChunksFrom.last i s _ hs (by omega)
    · have he : min (s + sz) text.length = s + sz :=
        Nat.min_eq_left (by omega)
      simp only [he, hend, if_false]
      refine ChunksFrom.step i s _ _ (by omega) ?_
      refine ih (s + sz - ov) (i + 1) (by omega) ?_
      have hmul : (fuel + 1) * (sz - ov) = (sz - ov) + fuel * (sz - ov) := by
        ring
      omega

theorem chunksFrom_ne_nil {sz ov len i s cs} (h : ChunksFrom sz ov len i s cs) :
    cs ≠ [] := by
  cases h <;> simp

theorem chunksFrom_head_start {sz ov len i s cs}
    (h : ChunksFrom sz ov len i s cs) : ∀ c ∈ cs.head?, c.start = s := by
  cases h <;> simp

theorem chunksFrom_last_end {sz ov len i s cs}
    (h : ChunksFrom sz ov len i s cs) : ∀ c ∈ cs.getLast?, c.«end» = len := by
  induction h with
  | last i s txt hs hle => simp
  | step i s txt rest hlt h ih =>
    have hne := chunksFrom_ne_nil h
    obtain ⟨x, xs, rfl⟩ := List.exists_cons_of_ne_nil hne
    intro c hc
    rw [List.getLast?_cons_cons] at hc
    exact ih c hc

theorem chunksFrom_size {sz ov len i s cs}
    (h : ChunksFrom sz ov len i s cs) : ∀ c ∈ cs, c.«end» - c.start ≤ sz := by
  induction h with
  | last i s txt hs hle =>
    intro c hc
    simp at hc
    subst hc
    simp
    omega
  | step i s txt rest hlt h ih =>
    intro c hc
    rcases List.mem_cons.mp hc with hc | hc
    · subst hc; simp
    · exact ih c hc

theorem chunksFrom_overlap {sz ov len i s cs} (hov : ov ≤ sz)
    (h : ChunksFrom sz ov len i s cs) : adjOverlap ov cs := by
  induction h with
  | last i s txt hs hle => trivial
  | step i s txt rest hlt h ih =>
    cases h with
    | last j t txt2 hs2 hle2 =>
      refine ⟨?_, trivial⟩
      simp
      omega
    | step j t txt2 rest2 hlt2 h2 =>
      refine ⟨?_, ih⟩
      simp
      omega

theorem chunksFrom_index {sz ov len i s cs}
    (h : ChunksFrom sz ov len i s cs) :
    cs.map Chunk.index = List.range' i cs.length := by
  induction h with
  | last i s txt hs hle => simp
  | step i s txt rest hlt h ih => simp [ih, List.range'_succ]

theorem chunksFrom_cover {sz ov len i s cs}
    (h : ChunksFrom sz ov len i s cs) :
    ∀ p, s ≤ p → p < len → ∃ c ∈ cs, c.start ≤ p ∧ p < c.«end» := by
  induction h with
  | last i s txt hs hle =>
    intro p hsp hp
    exact ⟨⟨i, s, len, txt⟩, by simp, by simpa using ⟨hsp, hp⟩⟩
  | step i s txt rest hlt h ih =>
    intro p hsp hp
    by_cases hcase : p < s + sz
    · exact ⟨⟨i, s, s + sz, txt⟩, by simp, by simpa using ⟨hsp, hcase⟩⟩
    · have hs' : s + sz - ov ≤ p := by omega
      obtain ⟨c, hc, hc1, hc2⟩ := ih p hs' hp
      exact ⟨c, List.mem_cons_of_mem _ hc, hc1, hc2⟩

theorem chunksFrom_planContract {sz ov len s cs} (hov : ov ≤ sz)
    (hs : s = 0) (h : ChunksFrom sz ov len 0 s cs) :
    PlanContract sz ov len cs := by
  subst hs
  refine ⟨chunksFrom_ne_nil h, chunksFrom_head_start h,
    chunksFrom_last_end h, chunksFrom_size h, chunksFrom_overlap hov h,
    ?_, fun p hp => chunksFrom_cover h p (Nat.zero_le p) hp⟩
  have := chunksFrom_index h
  simpa [List.range_eq_range'] using this

theorem create_chunks_contract (text : List Char) (model : String) :
    PlanContract (get_chunk_settings model).size
      (get_chunk_settings model).overlap text.length
      (create_chunks text model) := by
  have hov := overlap_lt_size model
  unfold create_chunks
  by_cases hsmall : text.length ≤ (get_chunk_settings model).size
  · simp only [hsmall, if_true]
    refine ⟨by simp, by simp, by simp, ?_, trivial,
      by simp [List.range_succ], ?_⟩
    · intro c hc
      simp at hc
      subst hc
      simpa using hsmall
    · intro p hp
      exact ⟨⟨0, 0, text.length, text⟩, by simp, by simpa using hp⟩
  · simp only [hsmall, if_false]
    refine chunksFrom_planContract (Nat.le_of_lt hov) rfl ?_
    refine createChunksGo_chunksFrom text _ _ hov text.length 0 0 (by omega) ?_
    have h1 : 1 ≤ (get_chunk_settings model).size -
        (get_chunk_settings model).overlap := by omega
    calc text.length = text.length * 1 := by ring
    _ ≤ text.length * ((get_chunk_settings model).size -
        (get_chunk_settings model).overlap) :=
      Nat.mul_le_mul_left _ h1
    _ = 0 + text.length * _ := by ring

theorem setRow_length (rows : List ChunkRow) (r : ChunkRow) :
    (setRow rows r).length = rows.length := by
  simp [setRow]

theorem setRow_map_index (rows : List ChunkRow) (r : ChunkRow) :
    (setRow rows r).map ChunkRow.chunk_index =
      rows.map ChunkRow.chunk_index := by
  induction rows with
  | nil => rfl
  | cons x xs ih =>
    simp only [setRow, List.map_cons] at ih ⊢
    by_cases h : x.chunk_index = r.chunk_index
    · simp [h, ih]
    · simp [h, ih]

theorem setRow_cons (x : ChunkRow) (xs : List ChunkRow) (r : ChunkRow) :
    setRow (x :: xs) r =
      (if x.chunk_index = r.chunk_index then r else x) :: setRow xs r := rfl

theorem mem_setRow_of_ne {rows : List ChunkRow} {x : ChunkRow}
    (r : ChunkRow) (hx : x ∈ rows) (hne : x.chunk_index ≠ r.chunk_index) :
    x ∈ setRow rows r := by
  unfold setRow
  refine List.mem_map.mpr ⟨x, hx, ?_⟩
  simp [hne]

theorem self_mem_setRow {rows : List ChunkRow} {x : ChunkRow}
    (r : ChunkRow) (hx : x ∈ rows) (heq : x.chunk_index = r.chunk_index) :
    r ∈ setRow rows r := by
  unfold setRow
  refine List.mem_map.mpr ⟨x, hx, ?_⟩
  simp [heq]

theorem mem_insertByIndex {x r : ChunkRow} {l : List ChunkRow} :
    x ∈ insertByIndex r l ↔ x = r ∨ x ∈ l := by
  induction l with
  | nil => simp [insertByIndex]
  | cons y ys ih =>
    unfold insertByIndex
    by_cases h : r.chunk_index ≤ y.chunk_index
    · simp [h]
    · simp [h, ih]
      tauto

theorem insertByIndex_perm (r : ChunkRow) (l : List ChunkRow) :
    (insertByIndex r l).Perm (r :: l) := by
  induction l with
  | nil => simp [insertByIndex]
  | cons y ys ih =>
    unfold insertByIndex
    by_cases h : r.chunk_index ≤ y.chunk_index
    · simp [h]
    · simp only [h, if_false]
      exact (List.Perm.cons y ih).trans (List.Perm.swap r y ys)

theorem orderByChunkIndex_perm (l : List ChunkRow) :
    (orderByChunkIndex l).Perm l := by
  induction l with
  | nil => simp [orderByChunkIndex]
  | cons x xs ih =>
    unfold orderByChunkIndex
    exact (insertByIndex_perm x (orderByChunkIndex xs)).trans
      (List.Perm.cons x ih)

theorem mem_orderByChunkIndex {x : ChunkRow} {l : List ChunkRow} :
    x ∈ orderByChunkIndex l ↔ x ∈ l :=
  (orderByChunkIndex_perm l).mem_iff

theorem pairwise_insertByIndex {r : ChunkRow} {l : List ChunkRow}
    (h : l.Pairwise idxLE) : (insertByIndex r l).Pairwise idxLE := by
  induction l with
  | nil => simp [insertByIndex, idxLE]
  | cons y ys ih =>
    unfold insertByIndex
    by_cases hle : r.chunk_index ≤ y.chunk_index
    · simp only [hle, if_true]
      refine List.Pairwise.cons ?_ h
      intro z hz
      rcases List.mem_cons.mp hz with rfl | hz
      · exact hle
      · have := (List.pairwise_cons.mp h).1 z hz
        unfold idxLE at this ⊢
        omega
    · simp only [hle, if_false]
      rw [List.pairwise_cons] at h
      refine List.Pairwise.cons ?_ (ih h.2)
      intro z hz
      rcases mem_insertByIndex.mp hz with rfl | hz
      · unfold idxLE; omega
      · exact h.1 z hz

theorem pairwise_orderByChunkIndex (l : List ChunkRow) :
    (orderByChunkIndex l).Pairwise idxLE := by
  induction l with
  | nil => simp [orderByChunkIndex]
  | cons x xs ih =>
    unfold orderByChunkIndex
    exact pairwise_insertByIndex ih

theorem mem_claimedRows {r : ChunkRow} {rows : List ChunkRow} :
    r ∈ claimedRows rows ↔
      r ∈ rows ∧ isClaimableStatus r.status = true := by
  unfold claimedRows
  rw [mem_orderByChunkIndex, List.mem_filter]

theorem claimedRows_pairwise (rows : List ChunkRow) :
    (claimedRows rows).Pairwise idxLE :=
  pairwise_orderByChunkIndex _

theorem claimedRows_nodup_index {rows : List ChunkRow}
    (h : (rows.map ChunkRow.chunk_index).Nodup) :
    ((claimedRows rows).map ChunkRow.chunk_index).Nodup := by
  unfold claimedRows
  have hperm : ((orderByChunkIndex
      (rows.filter fun r => isClaimableStatus r.status)).map
        ChunkRow.chunk_index).Perm
      ((rows.filter fun r => isClaimableStatus r.status).map
        ChunkRow.chunk_index) :=
    (orderByChunkIndex_perm _).map _
  rw [hperm.nodup_iff]
  exact ((List.filter_sublist rows).map ChunkRow.chunk_index).nodup h

theorem index_inj_of_nodup {rows : List ChunkRow}
    (h : (rows.map ChunkRow.chunk_index).Nodup) {a b : ChunkRow}
    (ha : a ∈ rows) (hb : b ∈ rows)
    (hab : a.chunk_index = b.chunk_index) : a = b :=
  List.inj_on_of_nodup_map h ha hb hab

theorem terminalCount_nil_of_none {rows : List ChunkRow}
    (h : ∀ r ∈ rows, isTerminal r.status = false) :
    terminalCount rows = 0 := by
  unfold terminalCount
  rw [List.filter_eq_nil_iff.mpr (by simpa using h)]
  rfl

theorem terminalCount_cons (x : ChunkRow) (xs : List ChunkRow) :
    terminalCount (x :: xs) =
      (if isTerminal x.status then 1 else 0) + terminalCount xs := by
  unfold terminalCount
  rw [List.filter_cons]
  split
  · simp [Nat.add_comm]
  · simp

theorem terminalCount_le_length (rows : List ChunkRow) :
    terminalCount rows ≤ rows.length :=
  (List.filter_sublist rows).length_le

theorem setRow_eq_of_forall_ne {rows : List ChunkRow} {r : ChunkRow}
    (h : ∀ x ∈ rows, x.chunk_index ≠ r.chunk_index) :
    setRow rows r = rows := by
  induction rows with
  | nil => rfl
  | cons x xs ih =>
    rw [setRow_cons, if_neg (h x (List.mem_cons_self x xs))]
    rw [ih fun y hy => h y (List.mem_cons_of_mem x hy)]

theorem terminalCount_setRow {rows : List ChunkRow} {r0 r : ChunkRow}
    (hnd : (rows.map ChunkRow.chunk_index).Nodup)
    (h0 : r0 ∈ rows) (heq : r0.chunk_index = r.chunk_index) :
    terminalCount (setRow rows r) +
        (if isTerminal r0.status then 1 else 0) =
      terminalCount rows + (if isTerminal r.status then 1 else 0) := by
  induction rows with
  | nil => cases h0
  | cons x xs ih =>
    simp only [List.map_cons, List.nodup_cons] at hnd
    rcases List.mem_cons.mp h0 with h0x | h0'
    · subst h0x
      have hxs : ∀ y ∈ xs, y.chunk_index ≠ r.chunk_index := by
        intro y hy hcon
        apply hnd.1
        rw [← heq] at hcon
        rw [← hcon]
        exact List.mem_map_of_mem _ hy
      rw [setRow_cons, if_pos heq, setRow_eq_of_forall_ne hxs,
        terminalCount_cons, terminalCount_cons]
      ring
    · have hxne : x.chunk_index ≠ r.chunk_index := by
        intro hcon
        apply hnd.1
        rw [hcon, ← heq]
        exact List.mem_map_of_mem _ h0'
      rw [setRow_cons, if_neg hxne, terminalCount_cons, terminalCount_cons]
      have hstep := ih hnd.2 h0'
      rw [Nat.add_assoc, hstep, Nat.add_assoc]

theorem chunkRetryLoop_spec (oracle : Nat → Nat → LLMOutcome) :
    ∀ (fuel retry_count : Nat) (row : ChunkRow) (st : AnalysisState)
      (le0 : Option String) (row' : ChunkRow) (st' : AnalysisState)
      (success : Bool) (le' : Option String),
      row.retry_count = retry_count →
      chunkRetryLoop oracle fuel retry_count row st le0 =
        (row', st', success, le') →
      st'.chunks = st.chunks ∧
      st'.failed_chunks = st.failed_chunks ∧
      st'.total_chunks = st.total_chunks ∧
      st'.status = st.status ∧
      st'.is_paused = st.is_paused ∧
      st'.llm_model = st.llm_model ∧
      row'.chunk_index = row.chunk_index ∧
      row'.max_retries = row.max_retries ∧
      (success = true →
        row'.status = CStatus.completed ∧
        row'.error_message = none ∧
        st'.completed_chunks = st.completed_chunks + 1) ∧
      (success = false →
        row'.status = row.status ∧
        st'.completed_chunks = st.completed_chunks ∧
        row'.retry_count = retry_count + fuel ∧
        ((fuel = 0 ∧ row' = row ∧ st' = st ∧ le' = le0) ∨
          (0 < fuel ∧ ∃ a m, oracle row.chunk_index a = LLMOutcome.err m ∧
            le' = some m))) := by
  intro fuel
  induction fuel with
  | zero =>
    intro rc row st le0 row' st' success le' hrc h
    rw [chunkRetryLoop] at h
    simp only [Prod.mk.injEq] at h
    obtain ⟨h1, h2, h3, h4⟩ := h
    subst h1; subst h2; subst h4
    refine ⟨rfl, rfl, rfl, rfl, rfl, rfl, rfl, rfl, ?_, ?_⟩
    · intro hc; exact Bool.noConfusion (h3.trans hc)
    · intro _
      exact ⟨rfl, rfl, by omega, Or.inl ⟨rfl, rfl, rfl, rfl⟩⟩
  | succ fuel ih =>
    intro rc row st le0 row' st' success le' hrc h
    rw [chunkRetryLoop] at h
    cases ho : oracle row.chunk_index rc with
    | ok response =>
      rw [ho] at h
      simp only [Prod.mk.injEq] at h
      obtain ⟨h1, h2, h3, h4⟩ := h
      subst h1; subst h2; subst h4
      refine ⟨rfl, rfl, rfl, rfl, rfl, rfl, rfl, rfl, ?_, ?_⟩
      · intro _; exact ⟨rfl, rfl, rfl⟩
      · intro hc; exact absurd h3.symm (by simp [hc])
    | err e =>
      rw [ho] at h
      by_cases hrl : is_rate_limit e
      · simp only [hrl, if_true] at h
        have H := ih (rc + 1) _ _ (some e) row' st' success le' rfl h
        obtain ⟨c1, c2, c3, c4, c5, c6, c7, c8, c9, c10⟩ := H
        refine ⟨c1, c2, c3, c4, c5, c6, c7, c8, c9, ?_⟩
        intro hf
        obtain ⟨d1, d2, d3, d4⟩ := c10 hf
        refine ⟨d1, d2, by omega, Or.inr ?_⟩
        rcases d4 with ⟨_, _, _, hle⟩ | ⟨_, a, m, hm, hle⟩
        · exact ⟨by omega, rc, e, ho, hle⟩
        · exact ⟨by omega, a, m, hm, hle⟩
      · simp only [hrl, if_false] at h
        have H := ih (rc + 1) _ _ (some e) row' st' success le' rfl h
        obtain ⟨c1, c2, c3, c4, c5, c6, c7, c8, c9, c10⟩ := H
        refine ⟨c1, c2, c3, c4, c5, c6, c7, c8, c9, ?_⟩
        intro hf
        obtain ⟨d1, d2, d3, d4⟩ := c10 hf
        refine ⟨d1, d2, by omega, Or.inr ?_⟩
        rcases d4 with ⟨_, _, _, hle⟩ | ⟨_, a, m, hm, hle⟩
        · exact ⟨by omega, rc, e, ho, hle⟩
        · exact ⟨by omega, a, m, hm, hle⟩

theorem runLoop_cons_eq (oracle : Nat → Nat → LLMOutcome) (rec : ChunkRow)
    (rest : List ChunkRow) (st : AnalysisState) (row2 : ChunkRow)
    (st2 : AnalysisState) (success : Bool) (le' : Option String)
    (hcr : chunkRetryLoop oracle
        ((claimRow rec).max_retries - (claimRow rec).retry_count)
        (claimRow rec).retry_count (claimRow rec)
        { st with chunks := setRow st.chunks (claimRow rec) } none =
      (row2, st2, success, le')) :
    runLoop oracle (rec :: rest) st =
      if success then
        runLoop oracle rest { st2 with chunks := setRow st2.chunks row2 }
      else
        if is_rate_limit (errStr le') then
          ({ st2 with
              chunks := setRow (setRow st2.chunks row2)
                { row2 with
                    status := CStatus.failed,
                    error_message := some (strTake 500 (errStr le')) },
              failed_chunks := st2.failed_chunks + 1,
              is_paused := true,
              pause_reason := some (pausedMsg row2.max_retries),
              status := "paused" },
            RunResult.pausedRes row2.chunk_index)
        else
          runLoop oracle rest { st2 with
            chunks := setRow (setRow st2.chunks row2)
              { row2 with
                  status := CStatus.failed,
                  error_message := some (strTake 500 (errStr le')) },
            failed_chunks := st2.failed_chunks + 1 } := by
  rw [runLoop]
  simp only [hcr]

theorem runLoop_frame (oracle : Nat → Nat → LLMOutcome) :
    ∀ (claimed : List ChunkRow) (st : AnalysisState),
      (runLoop oracle claimed st).1.chunks.length = st.chunks.length ∧
      (runLoop oracle claimed st).1.total_chunks = st.total_chunks ∧
      (runLoop oracle claimed st).1.llm_model = st.llm_model := by
  intro claimed
  induction claimed with
  | nil =>
    intro st
    rw [runLoop]
    split
    · exact ⟨rfl, rfl, rfl⟩
    · exact ⟨rfl, rfl, rfl⟩
  | cons rec rest ih =>
    intro st
    rcases hcr : chunkRetryLoop oracle
        ((claimRow rec).max_retries - (claimRow rec).retry_count)
        (claimRow rec).retry_count (claimRow rec)
        { st with chunks := setRow st.chunks (claimRow rec) } none with
      ⟨row2, st2, success, le'⟩
    have spec := chunkRetryLoop_spec oracle _ _ _ _ _ _ _ _ _ rfl hcr
    rw [runLoop_cons_eq oracle rec rest st row2 st2 success le' hcr]
    cases success with
    | true =>
      simp only [if_true]
      obtain ⟨l1, l2, l3⟩ := ih { st2 with chunks := setRow st2.chunks row2 }
      refine ⟨?_, ?_, ?_⟩
      · rw [l1]; simp only [setRow_length, spec.1, setRow_length]
      · rw [l2]; exact spec.2.2.1
      · rw [l3]; exact spec.2.2.2.2.2.1
    | false =>
      simp only [Bool.false_eq_true, if_false]
      by_cases hrl : is_rate_limit (errStr le')
      · simp only [hrl, if_true]
        refine ⟨?_, ?_, ?_⟩
        · simp only [setRow_length, spec.1, setRow_length]
        · exact spec.2.2.1
        · exact spec.2.2.2.2.2.1
      · simp only [hrl, Bool.false_eq_true, if_false]
        obtain ⟨l1, l2, l3⟩ := ih { st2 with
          chunks := setRow (setRow st2.chunks row2)
            { row2 with
                status := CStatus.failed,
                error_message := some (strTake 500 (errStr le')) },
          failed_chunks := st2.failed_chunks + 1 }
        refine ⟨?_, ?_, ?_⟩
        · rw [l1]; simp only [setRow_length, spec.1, setRow_length]
        · rw [l2]; exact spec.2.2.1
        · rw [l3]; exact spec.2.2.2.2.2.1

theorem runLoop_preserve (oracle : Nat → Nat → LLMOutcome) :
    ∀ (claimed : List ChunkRow) (st : AnalysisState) (x : ChunkRow),
      x ∈ st.chunks →
      (∀ rec ∈ claimed, rec.chunk_index ≠ x.chunk_index) →
      x ∈ (runLoop oracle claimed st).1.chunks := by
  intro claimed
  induction claimed with
  | nil =>
    intro st x hx _
    rw [runLoop]
    split
    · exact hx
    · exact hx
  | cons rec rest ih =>
    intro st x hx hne
    rcases hcr : chunkRetryLoop oracle
        ((claimRow rec).max_retries - (claimRow rec).retry_count)
        (claimRow rec).retry_count (claimRow rec)
        { st with chunks := setRow st.chunks (claimRow rec) } none with
      ⟨row2, st2, success, le'⟩
    have spec := chunkRetryLoop_spec oracle _ _ _ _ _ _ _ _ _ rfl hcr
    obtain ⟨s1, s2, s3, s4, s5, s6, s7, s8, s9, s10⟩ := spec
    have hneRec : x.chunk_index ≠ rec.chunk_index :=
      fun hcon => hne rec (List.mem_cons_self rec rest) hcon.symm
    have hx1 : x ∈ setRow st.chunks (claimRow rec) :=
      mem_setRow_of_ne _ hx hneRec
    have hx2 : x ∈ st2.chunks := by rw [s1]; exact hx1
    have hne2 : x.chunk_index ≠ row2.chunk_index := by
      rw [s7]; exact hneRec
    have hx3 : x ∈ setRow st2.chunks row2 := mem_setRow_of_ne _ hx2 hne2
    rw [runLoop_cons_eq oracle rec rest st row2 st2 success le' hcr]
    cases success with
    | true =>
      simp only [if_true]
      exact ih _ x hx3 fun r hr => hne r (List.mem_cons_of_mem rec hr)
    | false =>
      simp only [Bool.false_eq_true, if_false]
      have hx4 : x ∈ setRow (setRow st2.chunks row2)
          { row2 with
              status := CStatus.failed,
              error_message := some (strTake 500 (errStr le')) } :=
        mem_setRow_of_ne _ hx3 hne2
      by_cases hrl : is_rate_limit (errStr le')
      · simp only [hrl, if_true]
        exact hx4
      · simp only [hrl, Bool.false_eq_true, if_false]
        exact ih _ x hx4 fun r hr => hne r (List.mem_cons_of_mem rec hr)

theorem is_rate_limit_none : is_rate_limit (errStr none) = false := by decide

theorem runLoop_paused (oracle : Nat → Nat → LLMOutcome) :
    ∀ (claimed : List ChunkRow) (st st' : AnalysisState) (i : Nat),
      (∀ r ∈ claimed, r ∈ st.chunks) →
      (claimed.map ChunkRow.chunk_index).Nodup →
      claimed.Pairwise idxLE →
      runLoop oracle claimed st = (st', RunResult.pausedRes i) →
      st'.status = "paused" ∧ st'.is_paused = true ∧
      st'.pause_reason.isSome = true ∧
      (∃ rec ∈ claimed, rec.chunk_index = i) ∧
      (∃ row ∈ st'.chunks, row.chunk_index = i ∧
        row.status = CStatus.failed ∧
        row.retry_count = row.max_retries ∧
        row.error_message.isSome = true) ∧
      (∀ r ∈ claimed, i < r.chunk_index → r ∈ st'.chunks) := by
  intro claimed
  induction claimed with
  | nil =>
    intro st st' i _ _ _ hrun
    rw [runLoop] at hrun
    split at hrun <;> simp at hrun
  | cons rec rest ih =>
    intro st st' i hcl hnd hpw hrun
    simp only [List.map_cons, List.nodup_cons] at hnd
    rw [List.pairwise_cons] at hpw
    have hrecSt : rec ∈ st.chunks := hcl rec (List.mem_cons_self rec rest)
    rcases hcr : chunkRetryLoop oracle
        ((claimRow rec).max_retries - (claimRow rec).retry_count)
        (claimRow rec).retry_count (claimRow rec)
        { st with chunks := setRow st.chunks (claimRow rec) } none with
      ⟨row2, st2, success, le'⟩
    have spec := chunkRetryLoop_spec oracle _ _ _ _ _ _ _ _ _ rfl hcr
    obtain ⟨s1, s2, s3, s4, s5, s6, s7, s8, s9, s10⟩ := spec
    have hciRec : row2.chunk_index = rec.chunk_index := by
      rw [s7]; rfl
    have hclaimCi : (claimRow rec).chunk_index = rec.chunk_index := rfl
    have hmem2 : ∀ r ∈ rest, r ∈ st2.chunks := by
      intro r hr
      rw [s1]
      refine mem_setRow_of_ne _ (hcl r (List.mem_cons_of_mem rec hr)) ?_
      rw [hclaimCi]
      intro hcon
      exact hnd.1 (by rw [← hcon]; exact List.mem_map_of_mem _ hr)
    have hne2 : ∀ r ∈ rest, r.chunk_index ≠ row2.chunk_index := by
      intro r hr hcon
      rw [hciRec] at hcon
      exact hnd.1 (by rw [← hcon]; exact List.mem_map_of_mem _ hr)
    have hmem3 : ∀ r ∈ rest, r ∈ setRow st2.chunks row2 := fun r hr =>
      mem_setRow_of_ne _ (hmem2 r hr) (hne2 r hr)
    rw [runLoop_cons_eq oracle rec rest st row2 st2 success le' hcr] at hrun
    cases success with
    | true =>
      simp only [if_true] at hrun
      have H := ih { st2 with chunks := setRow st2.chunks row2 } st' i
        hmem3 hnd.2 hpw.2 hrun
      obtain ⟨h1, h2, h3, h4, h5, h6⟩ := H
      refine ⟨h1, h2, h3, ?_, h5, ?_⟩
      · obtain ⟨r', hr', hi⟩ := h4
        exact ⟨r', List.mem_cons_of_mem rec hr', hi⟩
      · intro r hr hlt
        rcases List.mem_cons.mp hr with rfl | hr'
        · obtain ⟨r', hr', hi⟩ := h4
          have := hpw.1 r' hr'
          unfold idxLE at this
          omega
        · exact h6 r hr' hlt
    | false =>
      simp only [Bool.false_eq_true, if_false] at hrun
      obtain ⟨f1, f2, f3, f4⟩ := s10 rfl
      by_cases hrl : is_rate_limit (errStr le')
      · simp only [hrl, if_true, Prod.mk.injEq, RunResult.pausedRes.injEq]
          at hrun
        obtain ⟨hst', hi⟩ := hrun
        have hfuel : 0 < (claimRow rec).max_retries -
            (claimRow rec).retry_count := by
          rcases f4 with ⟨_, _, _, hle⟩ | ⟨hf, _⟩
          · rw [hle] at hrl
            rw [is_rate_limit_none] at hrl
            cases hrl
          · exact hf
        have hclaimMem : claimRow rec ∈ st2.chunks := by
          rw [s1]
          exact self_mem_setRow _ hrecSt rfl
        have hrow2Mem : row2 ∈ setRow st2.chunks row2 :=
          self_mem_setRow _ hclaimMem s7.symm
        subst hst'
        refine ⟨rfl, rfl, rfl, ⟨rec, List.mem_cons_self rec rest, hi ▸ hciRec.symm ▸ rfl⟩, ?_, ?_⟩
        · refine ⟨{ row2 with
              status := CStatus.failed,
              error_message := some (strTake 500 (errStr le')) },
            self_mem_setRow _ hrow2Mem rfl, ?_, rfl, ?_, rfl⟩
          · simpa using hi.symm ▸ rfl
          · show row2.retry_count = row2.max_retries
            rw [s8, f3]
            simp only [claimRow] at hfuel ⊢
            omega
        · intro r hr hlt
          rcases List.mem_cons.mp hr with rfl | hr'
          · rw [← hi] at hlt
            rw [hciRec] at hlt
            omega
          · show r ∈ setRow (setRow st2.chunks row2) _
            refine mem_setRow_of_ne _ (hmem3 r hr') ?_
            show r.chunk_index ≠ row2.chunk_index
            exact hne2 r hr'
      · simp only [hrl, Bool.false_eq_true, if_false] at hrun
        have hmem4 : ∀ r ∈ rest, r ∈ setRow (setRow st2.chunks row2)
            { row2 with
                status := CStatus.failed,
                error_message := some (strTake 500 (errStr le')) } := by
          intro r hr
          exact mem_setRow_of_ne _ (hmem3 r hr) (hne2 r hr)
        have H := ih _ st' i hmem4 hnd.2 hpw.2 hrun
        obtain ⟨h1, h2, h3, h4, h5, h6⟩ := H
        refine ⟨h1, h2, h3, ?_, h5, ?_⟩
        · obtain ⟨r', hr', hi⟩ := h4
          exact ⟨r', List.mem_cons_of_mem rec hr', hi⟩
        · intro r hr hlt
          rcases List.mem_cons.mp hr with rfl | hr'
          · obtain ⟨r', hr', hi⟩ := h4
            have := hpw.1 r' hr'
            unfold idxLE at this
            omega
          · exact h6 r hr' hlt

theorem runLoop_counter (oracle : Nat → Nat → LLMOutcome) :
    ∀ (claimed : List ChunkRow) (st : AnalysisState),
      (∀ r ∈ claimed, r ∈ st.chunks) →
      (claimed.map ChunkRow.chunk_index).Nodup →
      (st.chunks.map ChunkRow.chunk_index).Nodup →
      (∀ r ∈ claimed, isTerminal r.status = false) →
      st.completed_chunks + st.failed_chunks = terminalCount st.chunks →
      (runLoop oracle claimed st).1.completed_chunks +
          (runLoop oracle claimed st).1.failed_chunks =
        terminalCount (runLoop oracle claimed st).1.chunks := by
  intro claimed
  induction claimed with
  | nil =>
    intro st _ _ _ _ hinv
    rw [runLoop]
    split
    · exact hinv
    · exact hinv
  | cons rec rest ih =>
    intro st hcl hnd hndRows hterm hinv
    simp only [List.map_cons, List.nodup_cons] at hnd
    have hrecSt : rec ∈ st.chunks := hcl rec (List.mem_cons_self rec rest)
    rcases hcr : chunkRetryLoop oracle
        ((claimRow rec).max_retries - (claimRow rec).retry_count)
        (claimRow rec).retry_count (claimRow rec)
        { st with chunks := setRow st.chunks (claimRow rec) } none with
      ⟨row2, st2, success, le'⟩
    have spec := chunkRetryLoop_spec oracle _ _ _ _ _ _ _ _ _ rfl hcr
    obtain ⟨s1, s2, s3, s4, s5, s6, s7, s8, s9, s10⟩ := spec
    have hclaimCi : (claimRow rec).chunk_index = rec.chunk_index := rfl
    have hciRec : row2.chunk_index = rec.chunk_index := by rw [s7]; rfl
    have hrecTerm : isTerminal rec.status = false :=
      hterm rec (List.mem_cons_self rec rest)
    have hclaimTerm : isTerminal (claimRow rec).status = false := rfl
    have hch2 : st2.chunks = setRow st.chunks (claimRow rec) := s1
    have htc2 : terminalCount st2.chunks = terminalCount st.chunks := by
      rw [hch2]
      have h := terminalCount_setRow (r := claimRow rec) hndRows hrecSt
        hclaimCi.symm
      rw [hrecTerm, hclaimTerm] at h
      simpa using h
    have hnd2 : (st2.chunks.map ChunkRow.chunk_index).Nodup := by
      rw [hch2, setRow_map_index]; exact hndRows
    have hclaimMem : claimRow rec ∈ st2.chunks := by
      rw [hch2]; exact self_mem_setRow _ hrecSt rfl
    have hfail2 : st2.failed_chunks = st.failed_chunks := by
      rw [s2]
    have hmem2 : ∀ r ∈ rest, r ∈ st2.chunks := by
      intro r hr
      rw [hch2]
      refine mem_setRow_of_ne _ (hcl r (List.mem_cons_of_mem rec hr)) ?_
      rw [hclaimCi]
      intro hcon
      exact hnd.1 (by rw [← hcon]; exact List.mem_map_of_mem _ hr)
    have hne2 : ∀ r ∈ rest, r.chunk_index ≠ row2.chunk_index := by
      intro r hr hcon
      rw [hciRec] at hcon
      exact hnd.1 (by rw [← hcon]; exact List.mem_map_of_mem _ hr)
    rw [runLoop_cons_eq oracle rec rest st row2 st2 success le' hcr]
    cases success with
    | true =>
      simp only [if_true]
      obtain ⟨g1, g2, g3⟩ := s9 rfl
      have hcomp2 : st2.completed_chunks = st.completed_chunks + 1 := by
        rw [g3]
      have hrow2Term : isTerminal row2.status = true := by
        rw [g1]; rfl
      have htc3 : terminalCount (setRow st2.chunks row2) =
          terminalCount st2.chunks + 1 := by
        have h := terminalCount_setRow (r := row2) hnd2 hclaimMem
          (by rw [hclaimCi, hciRec])
        rw [hclaimTerm, hrow2Term] at h
        simpa using h
      refine ih { st2 with chunks := setRow st2.chunks row2 } ?_ hnd.2 ?_ ?_ ?_
      · intro r hr
        exact mem_setRow_of_ne _ (hmem2 r hr) (hne2 r hr)
      · show ((setRow st2.chunks row2).map ChunkRow.chunk_index).Nodup
        rw [setRow_map_index]; exact hnd2
      · exact fun r hr => hterm r (List.mem_cons_of_mem rec hr)
      · show st2.completed_chunks + st2.failed_chunks =
          terminalCount (setRow st2.chunks row2)
        rw [htc3, htc2, hcomp2, hfail2]
        omega
    | false =>
      simp only [Bool.false_eq_true, if_false]
      obtain ⟨f1, f2, f3, f4⟩ := s10 rfl
      have hcomp2 : st2.completed_chunks = st.completed_chunks := by
        rw [f2]
      have hrow2Term : isTerminal row2.status = false := by
        rw [f1]; rfl
      have hrow2Mem : row2 ∈ setRow st2.chunks row2 :=
        self_mem_setRow _ hclaimMem (by rw [hclaimCi, hciRec])
      have hnd3 : ((setRow st2.chunks row2).map ChunkRow.chunk_index).Nodup := by
        rw [setRow_map_index]; exact hnd2
      have htc3 : terminalCount (setRow st2.chunks row2) =
          terminalCount st2.chunks := by
        have h := terminalCount_setRow (r := row2) hnd2 hclaimMem
          (by rw [hclaimCi, hciRec])
        rw [hclaimTerm, hrow2Term] at h
        simpa using h
      have htc4 : terminalCount (setRow (setRow st2.chunks row2)
          { row2 with
              status := CStatus.failed,
              error_message := some (strTake 500 (errStr le')) }) =
          terminalCount (setRow st2.chunks row2) + 1 := by
        have h := terminalCount_setRow
          (r := { row2 with
              status := CStatus.failed,
              error_message := some (strTake 500 (errStr le')) })
          hnd3 hrow2Mem rfl
        rw [hrow2Term] at h
        simpa using h
      by_cases hrl : is_rate_limit (errStr le')
      · simp only [hrl, if_true]
        show st2.completed_chunks + (st2.failed_chunks + 1) = terminalCount _
        rw [htc4, htc3, htc2, hcomp2, hfail2]
        omega
      · simp only [hrl, Bool.false_eq_true, if_false]
        refine ih _ ?_ hnd.2 ?_ ?_ ?_
        · intro r hr
          exact mem_setRow_of_ne _
            (mem_setRow_of_ne _ (hmem2 r hr) (hne2 r hr)) (hne2 r hr)
        · show ((setRow (setRow st2.chunks row2) _).map
            ChunkRow.chunk_index).Nodup
          rw [setRow_map_index]; exact hnd3
        · exact fun r hr => hterm r (List.mem_cons_of_mem rec hr)
        · show st2.completed_chunks + (st2.failed_chunks + 1) = terminalCount _
          rw [htc4, htc3, htc2, hcomp2, hfail2]
          omega

theorem runLoop_noRateLimit (oracle : Nat → Nat → LLMOutcome)
    (ho : ∀ i a m, oracle i a = LLMOutcome.err m → is_rate_limit m = false) :
    ∀ (claimed : List ChunkRow) (st : AnalysisState),
      (∀ r ∈ claimed, r ∈ st.chunks) →
      (claimed.map ChunkRow.chunk_index).Nodup →
      (∀ i, (runLoop oracle claimed st).2 ≠ RunResult.pausedRes i) ∧
      (∀ rec ∈ claimed, ∃ row ∈ (runLoop oracle claimed st).1.chunks,
        row.chunk_index = rec.chunk_index ∧
        (row.status = CStatus.completed ∨
          (row.status = CStatus.failed ∧
            row.error_message.isSome = true))) := by
  intro claimed
  induction claimed with
  | nil =>
    intro st _ _
    refine ⟨?_, by simp⟩
    intro i
    rw [runLoop]
    split
    · simp
    · simp
  | cons rec rest ih =>
    intro st hcl hnd
    simp only [List.map_cons, List.nodup_cons] at hnd
    have hrecSt : rec ∈ st.chunks := hcl rec (List.mem_cons_self rec rest)
    rcases hcr : chunkRetryLoop oracle
        ((claimRow rec).max_retries - (claimRow rec).retry_count)
        (claimRow rec).retry_count (claimRow rec)
        { st with chunks := setRow st.chunks (claimRow rec) } none with
      ⟨row2, st2, success, le'⟩
    have spec := chunkRetryLoop_spec oracle _ _ _ _ _ _ _ _ _ rfl hcr
    obtain ⟨s1, s2, s3, s4, s5, s6, s7, s8, s9, s10⟩ := spec
    have hclaimCi : (claimRow rec).chunk_index = rec.chunk_index := rfl
    have hciRec : row2.chunk_index = rec.chunk_index := by rw [s7]; rfl
    have hch2 : st2.chunks = setRow st.chunks (claimRow rec) := s1
    have hclaimMem : claimRow rec ∈ st2.chunks := by
      rw [hch2]; exact self_mem_setRow _ hrecSt rfl
    have hrow2Mem : row2 ∈ setRow st2.chunks row2 :=
      self_mem_setRow _ hclaimMem (by rw [hclaimCi, hciRec])
    have hmem2 : ∀ r ∈ rest, r ∈ st2.chunks := by
      intro r hr
      rw [hch2]
      refine mem_setRow_of_ne _ (hcl r (List.mem_cons_of_mem rec hr)) ?_
      rw [hclaimCi]
      intro hcon
      exact hnd.1 (by rw [← hcon]; exact List.mem_map_of_mem _ hr)
    have hne2 : ∀ r ∈ rest, r.chunk_index ≠ row2.chunk_index := by
      intro r hr hcon
      rw [hciRec] at hcon
      exact hnd.1 (by rw [← hcon]; exact List.mem_map_of_mem _ hr)
    rw [runLoop_cons_eq oracle rec rest st row2 st2 success le' hcr]
    cases success with
    | true =>
      simp only [if_true]
      obtain ⟨g1, g2, g3⟩ := s9 rfl
      have H := ih { st2 with chunks := setRow st2.chunks row2 }
        (fun r hr => mem_setRow_of_ne _ (hmem2 r hr) (hne2 r hr)) hnd.2
      refine ⟨H.1, ?_⟩
      intro rec' hrec'
      rcases List.mem_cons.mp hrec' with rfl | hr'
      · refine ⟨row2, ?_, hciRec, Or.inl g1⟩
        exact runLoop_preserve oracle rest _ row2 hrow2Mem
          fun r hr hcon => hne2 r hr hcon
      · exact H.2 rec' hr'
    | false =>
      simp only [Bool.false_eq_true, if_false]
      obtain ⟨f1, f2, f3, f4⟩ := s10 rfl
      have hrl : is_rate_limit (errStr le') = false := by
        rcases f4 with ⟨_, _, _, hle⟩ | ⟨_, a, m, hm, hle⟩
        · rw [hle]; exact is_rate_limit_none
        · rw [hle]; exact ho _ a m hm
      simp only [hrl, Bool.false_eq_true, if_false]
      have hmem4 : ∀ r ∈ rest, r ∈ setRow (setRow st2.chunks row2)
          { row2 with
              status := CStatus.failed,
              error_message := some (strTake 500 (errStr le')) } := by
        intro r hr
        exact mem_setRow_of_ne _
          (mem_setRow_of_ne _ (hmem2 r hr) (hne2 r hr)) (hne2 r hr)
      have H := ih { st2 with
          chunks := setRow (setRow st2.chunks row2)
            { row2 with
                status := CStatus.failed,
                error_message := some (strTake 500 (errStr le')) },
          failed_chunks := st2.failed_chunks + 1 } hmem4 hnd.2
      refine ⟨H.1, ?_⟩
      intro rec' hrec'
      rcases List.mem_cons.mp hrec' with rfl | hr'
      · refine ⟨{ row2 with
            status := CStatus.failed,
            error_message := some (strTake 500 (errStr le')) },
          ?_, hciRec, Or.inr ⟨rfl, rfl⟩⟩
        refine runLoop_preserve oracle rest _ _
          (self_mem_setRow _ hrow2Mem rfl) ?_
        intro r hr hcon
        exact hne2 r hr hcon
      · exact H.2 rec' hr'

theorem create_chunks_ne_nil (text : List Char) (model : String) :
    create_chunks text model ≠ [] :=
  (create_chunks_contract text model).1

theorem create_chunks_index (text : List Char) (model : String) :
    (create_chunks text model).map Chunk.index =
      List.range (create_chunks text model).length :=
  (create_chunks_contract text model).2.2.2.2.2.1

theorem planRows_map_index (cs : List Chunk) (total : Nat) :
    ((cs.map (planRow total)).map ChunkRow.chunk_index) =
      cs.map Chunk.index := by
  rw [List.map_map]
  rfl

theorem initChunkedState_chunks (st0 : AnalysisState) (chat_text : List Char) :
    (initChunkedState st0 chat_text).chunks =
      if st0.chunks.length = 0 then
        (create_chunks chat_text (modelOf st0.llm_model)).map
          (planRow (create_chunks chat_text (modelOf st0.llm_model)).length)
      else st0.chunks := by
  by_cases h : st0.chunks.length = 0 <;> simp [initChunkedState, h]

theorem initChunkedState_nodup (st0 : AnalysisState) (chat_text : List Char)
    (hnd : (st0.chunks.map ChunkRow.chunk_index).Nodup) :
    ((initChunkedState st0 chat_text).chunks.map
      ChunkRow.chunk_index).Nodup := by
  rw [initChunkedState_chunks]
  split
  · rw [planRows_map_index, create_chunks_index]
    exact List.nodup_range _
  · exact hnd

theorem initChunkedState_basic (st0 : AnalysisState) (chat_text : List Char) :
    (initChunkedState st0 chat_text).completed_chunks = 0 ∧
    (initChunkedState st0 chat_text).failed_chunks = 0 ∧
    (initChunkedState st0 chat_text).total_chunks =
      (create_chunks chat_text (modelOf st0.llm_model)).length ∧
    (initChunkedState st0 chat_text).llm_model = st0.llm_model := by
  by_cases h : st0.chunks.length = 0 <;> simp [initChunkedState, h]

theorem claim_C1 (oracle : Nat → Nat → LLMOutcome) (st0 : AnalysisState)
    (chat_text : List Char) (i : Nat)
    (hnd : (st0.chunks.map ChunkRow.chunk_index).Nodup)
    (hpause : (process_pii_analysis_chunked oracle st0 chat_text).2 =
      RunResult.pausedRes i) :
    (process_pii_analysis_chunked oracle st0 chat_text).1.status =
      "paused" ∧
    (process_pii_analysis_chunked oracle st0 chat_text).1.is_paused = true ∧
    (process_pii_analysis_chunked oracle st0
      chat_text).1.pause_reason.isSome = true ∧
    (∃ row ∈ (process_pii_analysis_chunked oracle st0 chat_text).1.chunks,
      row.chunk_index = i ∧ row.status = CStatus.failed ∧
      row.retry_count = row.max_retries ∧
      row.error_message.isSome = true) ∧
    (∀ r ∈ claimedRows (initChunkedState st0 chat_text).chunks,
      i < r.chunk_index →
      r ∈ (process_pii_analysis_chunked oracle st0 chat_text).1.chunks) := by
  have hndI := initChunkedState_nodup st0 chat_text hnd
  have hrun : runLoop oracle
      (claimedRows (initChunkedState st0 chat_text).chunks)
      (initChunkedState st0 chat_text) =
      ((process_pii_analysis_chunked oracle st0 chat_text).1,
        RunResult.pausedRes i) := by
    rw [← hpause]
    rfl
  have H := runLoop_paused oracle _ _ _ i
    (fun r hr => (mem_claimedRows.mp hr).1)
    (claimedRows_nodup_index hndI)
    (claimedRows_pairwise _)
    hrun
  exact ⟨H.1, H.2.1, H.2.2.1, H.2.2.2.2.1, H.2.2.2.2.2⟩

theorem claim_C1_witness :
    (process_pii_analysis_chunked (fun _ _ => LLMOutcome.err "429")
      freshAnalysis ['h', 'i']).1.status = "paused" :=
  (claim_C1 (fun _ _ => LLMOutcome.err "429") freshAnalysis ['h', 'i'] 0
    (by decide) (by decide)).1

theorem claim_C2_amended (oracle : Nat → Nat → LLMOutcome)
    (st0 : AnalysisState) (chat_text : List Char)
    (hempty : st0.chunks = []) :
    (process_pii_analysis_chunked oracle st0 chat_text).1.completed_chunks +
        (process_pii_analysis_chunked oracle st0 chat_text).1.failed_chunks =
      terminalCount
        (process_pii_analysis_chunked oracle st0 chat_text).1.chunks ∧
    terminalCount
        (process_pii_analysis_chunked oracle st0 chat_text).1.chunks ≤
      (process_pii_analysis_chunked oracle st0 chat_text).1.total_chunks := by
  have hlen0 : st0.chunks.length = 0 := by rw [hempty]; rfl
  have hchunksI : (initChunkedState st0 chat_text).chunks =
      (create_chunks chat_text (modelOf st0.llm_model)).map
        (planRow (create_chunks chat_text (modelOf st0.llm_model)).length) := by
    rw [initChunkedState_chunks, if_pos hlen0]
  have hpend : ∀ r ∈ (initChunkedState st0 chat_text).chunks,
      r.status = CStatus.pending := by
    intro r hr
    rw [hchunksI] at hr
    obtain ⟨c, _, rfl⟩ := List.mem_map.mp hr
    rfl
  have hnd : (st0.chunks.map ChunkRow.chunk_index).Nodup := by
    rw [hempty]; exact List.nodup_nil
  have hndI := initChunkedState_nodup st0 chat_text hnd
  obtain ⟨hc0, hf0, htot, _⟩ := initChunkedState_basic st0 chat_text
  have hterm : ∀ r ∈ claimedRows (initChunkedState st0 chat_text).chunks,
      isTerminal r.status = false := by
    intro r hr
    rw [hpend r (mem_claimedRows.mp hr).1]
    rfl
  have hinv : (initChunkedState st0 chat_text).completed_chunks +
      (initChunkedState st0 chat_text).failed_chunks =
      terminalCount (initChunkedState st0 chat_text).chunks := by
    rw [hc0, hf0, terminalCount_nil_of_none
      (fun r hr => by rw [hpend r hr]; rfl)]
  have H := runLoop_counter oracle
    (claimedRows (initChunkedState st0 chat_text).chunks)
    (initChunkedState st0 chat_text)
    (fun r hr => (mem_claimedRows.mp hr).1)
    (claimedRows_nodup_index hndI) hndI hterm hinv
  obtain ⟨hlen, htotF, _⟩ := runLoop_frame oracle
    (claimedRows (initChunkedState st0 chat_text).chunks)
    (initChunkedState st0 chat_text)
  refine ⟨H, ?_⟩
  have hlen' : (process_pii_analysis_chunked oracle st0
      chat_text).1.chunks.length =
      (initChunkedState st0 chat_text).chunks.length := hlen
  have htotF' : (process_pii_analysis_chunked oracle st0
      chat_text).1.total_chunks =
      (initChunkedState st0 chat_text).total_chunks := htotF
  have hA := terminalCount_le_length
    (process_pii_analysis_chunked oracle st0 chat_text).1.chunks
  rw [hlen', hchunksI, List.length_map] at hA
  rw [htotF', htot]
  exact hA

theorem claim_C2_amended_witness :
    (process_pii_analysis_chunked (fun _ _ => LLMOutcome.ok "resp")
        freshAnalysis ['h', 'i']).1.completed_chunks +
      (process_pii_analysis_chunked (fun _ _ => LLMOutcome.ok "resp")
        freshAnalysis ['h', 'i']).1.failed_chunks =
      terminalCount (process_pii_analysis_chunked
        (fun _ _ => LLMOutcome.ok "resp") freshAnalysis ['h', 'i']).1.chunks :=
  (claim_C2_amended (fun _ _ => LLMOutcome.ok "resp") freshAnalysis
    ['h', 'i'] rfl).1

theorem claim_C2_counterexample :
    (process_pii_analysis_chunked (fun _ _ => LLMOutcome.ok "resp")
        c2ResumeState ['h', 'i']).1.completed_chunks +
      (process_pii_analysis_chunked (fun _ _ => LLMOutcome.ok "resp")
        c2ResumeState ['h', 'i']).1.failed_chunks ≠
      terminalCount (process_pii_analysis_chunked
        (fun _ _ => LLMOutcome.ok "resp") c2ResumeState ['h', 'i']).1.chunks :=
  by decide

theorem initChunkedState_status (st0 : AnalysisState)
    (chat_text : List Char) :
    (initChunkedState st0 chat_text).status = "processing" := by
  by_cases h : st0.chunks.length = 0 <;> simp [initChunkedState, h]

theorem runLoop_status_cases (oracle : Nat → Nat → LLMOutcome) :
    ∀ (claimed : List ChunkRow) (st : AnalysisState),
      (runLoop oracle claimed st).1.status = st.status ∨
      (runLoop oracle claimed st).1.status = "partial" ∨
      ∃ i, (runLoop oracle claimed st).2 = RunResult.pausedRes i := by
  intro claimed
  induction claimed with
  | nil =>
    intro st
    rw [runLoop]
    split
    · right; left; rfl
    · left; rfl
  | cons rec rest ih =>
    intro st
    rcases hcr : chunkRetryLoop oracle
        ((claimRow rec).max_retries - (claimRow rec).retry_count)
        (claimRow rec).retry_count (claimRow rec)
        { st with chunks := setRow st.chunks (claimRow rec) } none with
      ⟨row2, st2, success, le'⟩
    have spec := chunkRetryLoop_spec oracle _ _ _ _ _ _ _ _ _ rfl hcr
    have hst2 : st2.status = st.status := spec.2.2.2.1
    rw [runLoop_cons_eq oracle rec rest st row2 st2 success le' hcr]
    cases success with
    | true =>
      simp only [if_true]
      rcases ih { st2 with chunks := setRow st2.chunks row2 } with h | h | h
      · left; rw [h]; exact hst2
      · right; left; exact h
      · right; right; exact h
    | false =>
      simp only [Bool.false_eq_true, if_false]
      by_cases hrl : is_rate_limit (errStr le')
      · simp only [hrl, if_true]
        right; right; exact ⟨row2.chunk_index, rfl⟩
      · simp only [hrl, Bool.false_eq_true, if_false]
        rcases ih { st2 with
            chunks := setRow (setRow st2.chunks row2)
              { row2 with
                  status := CStatus.failed,
                  error_message := some (strTake 500 (errStr le')) },
            failed_chunks := st2.failed_chunks + 1 } with h | h | h
        · left; rw [h]; exact hst2
        · right; left; exact h
        · right; right; exact h

theorem claim_C5 (oracle : Nat → Nat → LLMOutcome) (st0 : AnalysisState)
    (chat_text : List Char)
    (hnd : (st0.chunks.map ChunkRow.chunk_index).Nodup)
    (ho : ∀ i a m, oracle i a = LLMOutcome.err m → is_rate_limit m = false) :
    (∀ i, (process_pii_analysis_chunked oracle st0 chat_text).2 ≠
      RunResult.pausedRes i) ∧
    (process_pii_analysis_chunked oracle st0 chat_text).1.status ≠
      "paused" ∧
    (∀ rec ∈ claimedRows (initChunkedState st0 chat_text).chunks,
      ∃ row ∈ (process_pii_analysis_chunked oracle st0 chat_text).1.chunks,
        row.chunk_index = rec.chunk_index ∧
        (row.status = CStatus.completed ∨
          (row.status = CStatus.failed ∧
            row.error_message.isSome = true))) := by
  have hndI := initChunkedState_nodup st0 chat_text hnd
  have H := runLoop_noRateLimit oracle ho
    (claimedRows (initChunkedState st0 chat_text).chunks)
    (initChunkedState st0 chat_text)
    (fun r hr => (mem_claimedRows.mp hr).1)
    (claimedRows_nodup_index hndI)
  refine ⟨H.1, ?_, H.2⟩
  rcases runLoop_status_cases oracle
      (claimedRows (initChunkedState st0 chat_text).chunks)
      (initChunkedState st0 chat_text) with h | h | ⟨i, h⟩
  · show (runLoop oracle _ _).1.status ≠ "paused"
    rw [h, initChunkedState_status]
    decide
  · show (runLoop oracle _ _).1.status ≠ "paused"
    rw [h]
    decide
  · exact absurd h (H.1 i)

theorem claim_C5_witness :
    (process_pii_analysis_chunked (fun _ _ => LLMOutcome.err "boom")
      freshAnalysis ['h', 'i']).2 ≠ RunResult.pausedRes 0 :=
  (claim_C5 (fun _ _ => LLMOutcome.err "boom") freshAnalysis ['h', 'i']
    (by decide)
    (fun _ _ m hm => by cases hm; decide)).1 0

theorem isClaimableStatus_iff (s : CStatus) :
    isClaimableStatus s = true ↔
      (s = CStatus.pending ∨ s = CStatus.processing ∨
        s = CStatus.failed) := by
  cases s <;> decide

theorem resume_analysis_chunks (st : AnalysisState)
    (req : ResumeAnalysisRequest) (st'' : AnalysisState)
    (hok : resume_analysis st req = Except.ok st'') :
    st''.chunks =
      if req.reset_failed_chunks then
        st.chunks.map fun c =>
          if c.status == CStatus.failed then
            { c with
                status := CStatus.pending, retry_count := 0,
                error_message := none, error_code := none }
          else c
      else st.chunks := by
  unfold resume_analysis at hok
  split at hok
  · repeat' split at hok
    all_goals obtain rfl := Except.ok.inj hok
    all_goals simp_all
  · exact absurd hok (by simp)

theorem claim_C6 :
    (∀ (st : AnalysisState) (req : ResumeAnalysisRequest)
        (st'' : AnalysisState),
      resume_analysis st req = Except.ok st'' →
      (∀ r ∈ st.chunks, r.status ≠ CStatus.failed → r ∈ st''.chunks) ∧
      (req.reset_failed_chunks = false → st''.chunks = st.chunks) ∧
      (req.reset_failed_chunks = true → ∀ r ∈ st.chunks,
        r.status = CStatus.failed →
        { r with
            status := CStatus.pending, retry_count := 0,
            error_message := none, error_code := none } ∈ st''.chunks)) ∧
    (∀ (rows : List ChunkRow) (r : ChunkRow),
      r ∈ claimedRows rows ↔ r ∈ rows ∧
        (r.status = CStatus.pending ∨ r.status = CStatus.processing ∨
          r.status = CStatus.failed)) ∧
    (∀ rows : List ChunkRow, (claimedRows rows).Pairwise idxLE) ∧
    (∀ (oracle : Nat → Nat → LLMOutcome) (st0 : AnalysisState)
        (chat_text : List Char),
      (st0.chunks.map ChunkRow.chunk_index).Nodup →
      ∀ r ∈ (initChunkedState st0 chat_text).chunks,
        r.status = CStatus.completed →
        r ∈ (process_pii_analysis_chunked oracle st0 chat_text).1.chunks) := by
  refine ⟨?_, ?_, ?_, ?_⟩
  · intro st req st'' hok
    have hch := resume_analysis_chunks st req st'' hok
    refine ⟨?_, ?_, ?_⟩
    · intro r hr hrs
      rw [hch]
      split
      · refine List.mem_map.mpr ⟨r, hr, ?_⟩
        have : (r.status == CStatus.failed) = false := by
          cases hcs : r.status <;> simp_all
        rw [this]
        simp
      · exact hr
    · intro hrf
      rw [hch, if_neg (by rw [hrf]; exact Bool.false_ne_true)]
    · intro hrf r hr hrs
      rw [hch, if_pos hrf]
      refine List.mem_map.mpr ⟨r, hr, ?_⟩
      rw [hrs]
      rfl
  · intro rows r
    rw [mem_claimedRows, isClaimableStatus_iff]
  · exact fun rows => claimedRows_pairwise rows
  · intro oracle st0 chat_text hnd r hr hc
    have hndI := initChunkedState_nodup st0 chat_text hnd
    refine runLoop_preserve oracle _ _ r hr ?_
    intro rec hrec hcon
    have hrecMem := (mem_claimedRows.mp hrec).1
    have hcl := (mem_claimedRows.mp hrec).2
    have heq : rec = r := index_inj_of_nodup hndI hrecMem hr hcon
    rw [heq, hc] at hcl
    exact absurd hcl (by decide)

theorem claim_C6_witness :
    c2CompletedRow ∈ (process_pii_analysis_chunked
      (fun _ _ => LLMOutcome.ok "r") c2ResumeState ['h', 'i']).1.chunks :=
  claim_C6.2.2.2 (fun _ _ => LLMOutcome.ok "r") c2ResumeState ['h', 'i']
    (by decide) c2CompletedRow (by decide) (by decide)

theorem claim_C7_amended (o1 o2 : Nat → Nat → LLMOutcome)
    (st0 : AnalysisState) (chat_text : List Char)
    (hempty : st0.chunks = []) :
    (process_pii_analysis_chunked o1 st0 chat_text).1.chunks.length =
      (create_chunks chat_text (modelOf st0.llm_model)).length ∧
    (process_pii_analysis_chunked o2
        (process_pii_analysis_chunked o1 st0 chat_text).1
        chat_text).1.chunks.length =
      (create_chunks chat_text (modelOf st0.llm_model)).length := by
  have hlen0 : st0.chunks.length = 0 := by rw [hempty]; rfl
  obtain ⟨hL1, _, hM1⟩ := runLoop_frame o1
    (claimedRows (initChunkedState st0 chat_text).chunks)
    (initChunkedState st0 chat_text)
  have hchunksI : (initChunkedState st0 chat_text).chunks.length =
      (create_chunks chat_text (modelOf st0.llm_model)).length := by
    rw [initChunkedState_chunks, if_pos hlen0, List.length_map]
  have h1 : (process_pii_analysis_chunked o1 st0
      chat_text).1.chunks.length =
      (create_chunks chat_text (modelOf st0.llm_model)).length := by
    have : (process_pii_analysis_chunked o1 st0
        chat_text).1.chunks.length =
        (initChunkedState st0 chat_text).chunks.length := hL1
    rw [this, hchunksI]
  have hmodel : (process_pii_analysis_chunked o1 st0 chat_text).1.llm_model =
      st0.llm_model := by
    have h' : (process_pii_analysis_chunked o1 st0 chat_text).1.llm_model =
        (initChunkedState st0 chat_text).llm_model := hM1
    rw [h', (initChunkedState_basic st0 chat_text).2.2.2]
  refine ⟨h1, ?_⟩
  have hpos : 0 < (create_chunks chat_text
      (modelOf st0.llm_model)).length :=
    List.length_pos.mpr (create_chunks_ne_nil _ _)
  have hne2 : (process_pii_analysis_chunked o1 st0
      chat_text).1.chunks.length ≠ 0 := by
    rw [h1]; omega
  obtain ⟨hL2, _, _⟩ := runLoop_frame o2
    (claimedRows (initChunkedState
      (process_pii_analysis_chunked o1 st0 chat_text).1 chat_text).chunks)
    (initChunkedState
      (process_pii_analysis_chunked o1 st0 chat_text).1 chat_text)
  have hchunksI2 : (initChunkedState
      (process_pii_analysis_chunked o1 st0 chat_text).1 chat_text).chunks =
      (process_pii_analysis_chunked o1 st0 chat_text).1.chunks := by
    rw [initChunkedState_chunks, if_neg hne2]
  have h2 : (process_pii_analysis_chunked o2
      (process_pii_analysis_chunked o1 st0 chat_text).1
      chat_text).1.chunks.length =
      (initChunkedState (process_pii_analysis_chunked o1 st0 chat_text).1
        chat_text).chunks.length := hL2
  rw [h2, hchunksI2, h1]

theorem claim_C7_amended_witness :
    (process_pii_analysis_chunked (fun _ _ => LLMOutcome.ok "s")
        (process_pii_analysis_chunked (fun _ _ => LLMOutcome.ok "r")
          freshAnalysis ['h', 'i']).1
        ['h', 'i']).1.chunks.length =
      (create_chunks ['h', 'i'] (modelOf freshAnalysis.llm_model)).length :=
  (claim_C7_amended (fun _ _ => LLMOutcome.ok "r")
    (fun _ _ => LLMOutcome.ok "s") freshAnalysis ['h', 'i'] rfl).2

theorem claim_C7_counterexample :
    (process_pii_analysis_sync (fun _ _ => LLMOutcome.ok "r")
        (LLMOutcome.ok "c")
        (process_pii_analysis_sync (fun _ _ => LLMOutcome.ok "r")
          (LLMOutcome.ok "c") freshAnalysis ['h', 'i']).1
        ['h', 'i']).1.chunks.length ≠
      (create_chunks ['h', 'i'] "gpt-4-turbo").length := by decide

theorem claim_C8_amended (model : String) :
    create_chunks [] model = [⟨0, 0, 0, []⟩] := by
  unfold create_chunks
  simp

theorem claim_C8_counterexample :
    create_chunks [] "gpt-4-turbo" ≠ [] := by decide

theorem claim_C9 (previous_context new_extraction_json : List Char)
    (chunk_number : Nat)
    (combined : List Char)
    (hcomb : combined = previous_context ++
      (("\n\n### Chunk " ++ toString chunk_number ++ ":\n").toList ++
        new_extraction_json.take 2000)) :
    (combined.length ≤ 8000 →
      build_accumulated_context previous_context new_extraction_json
        chunk_number = combined) ∧
    (8000 < combined.length →
      build_accumulated_context previous_context new_extraction_json
          chunk_number = combined.drop (combined.length - 8000) ∧
      (build_accumulated_context previous_context new_extraction_json
        chunk_number).length = 8000) ∧
    (build_accumulated_context previous_context new_extraction_json
      chunk_number).length ≤ 8000 ∧
    List.IsSuffix
      (build_accumulated_context previous_context new_extraction_json
        chunk_number) combined := by
  have hdef : build_accumulated_context previous_context new_extraction_json
      chunk_number =
      if combined.length > 8000 then
        combined.drop (combined.length - 8000)
      else combined := by
    rw [hcomb]
    rfl
  by_cases h : combined.length > 8000
  · rw [hdef, if_pos h]
    refine ⟨fun hle => absurd h (by omega), fun _ => ⟨rfl, ?_⟩, ?_, ?_⟩
    · rw [List.length_drop]; omega
    · rw [List.length_drop]; omega
    · exact List.drop_suffix _ _
  · rw [hdef, if_neg h]
    refine ⟨fun _ => rfl, fun hgt => absurd hgt (by omega), by omega, ?_⟩
    exact List.suffix_refl _

theorem claim_C9_witness :
    (build_accumulated_context [] ['a'] 1).length ≤ 8000 :=
  (claim_C9 [] ['a'] 1 _ rfl).2.2.1

theorem claim_C4_amended :
    (∀ (st : AnalysisState) (e : String),
      (∃ r ∈ st.chunks, r.status = CStatus.completed) →
      consolidate_pii_analysis st (LLMOutcome.err e) =
        ({ st with
            status := "failed",
            llm_response := some ("Erro ao consolidar: " ++ e) },
          ConsolidateResult.raised e)) ∧
    (∀ (eo ro : Nat → LLMOutcome) (parse : String → Option String)
        (dumps : DeepExtraction → List Char) (text : List Char)
        (job0 : DeepJob) (e : String),
      text ≠ [] →
      (process_job eo ro (LLMOutcome.err e) parse dumps (some text)
        job0).status = "completed" ∧
      (process_job eo ro (LLMOutcome.err e) parse dumps (some text)
        job0).final_result =
        some ("Erro na consolidação: " ++ e)) := by
  constructor
  · intro st e hex
    obtain ⟨r, hr, hc⟩ := hex
    have hfil : r ∈ st.chunks.filter
        fun x => x.status == CStatus.completed := by
      rw [List.mem_filter]
      exact ⟨hr, by rw [hc]; rfl⟩
    have hmem := mem_orderByChunkIndex.mpr hfil
    have hne : orderByChunkIndex (st.chunks.filter
        fun x => x.status == CStatus.completed) ≠ [] := by
      intro hnil
      rw [hnil] at hmem
      cases hmem
    obtain ⟨h, t, heq⟩ := List.exists_cons_of_ne_nil hne
    unfold consolidate_pii_analysis
    simp only [heq]
    rfl
  · intro eo ro parse dumps text job0 e ht
    constructor
    · simp [process_job, ht, consolidate_results]
    · simp [process_job, ht, consolidate_results]

theorem claim_C4_amended_witness :
    (consolidate_pii_analysis c2ResumeState
      (LLMOutcome.err "boom")).1.status = "failed" := by
  rw [claim_C4_amended.1 c2ResumeState "boom"
    ⟨c2CompletedRow, by decide, rfl⟩]

theorem claim_C4_counterexample :
    (process_job (fun _ => LLMOutcome.ok "x") (fun _ => LLMOutcome.ok "y")
        (LLMOutcome.err "boom") (fun _ => none) (fun _ => [])
        (some ['o', 'i']) freshDeepJob).status = "completed" ∧
    (process_job (fun _ => LLMOutcome.ok "x") (fun _ => LLMOutcome.ok "y")
        (LLMOutcome.err "boom") (fun _ => none) (fun _ => [])
        (some ['o', 'i']) freshDeepJob).status ≠ "failed" ∧
    (process_job (fun _ => LLMOutcome.ok "x") (fun _ => LLMOutcome.ok "y")
        (LLMOutcome.err "boom") (fun _ => none) (fun _ => [])
        (some ['o', 'i']) freshDeepJob).final_result =
      some ("Erro na consolidação: boom") := by decide

theorem setDeepRow_append (old : List DeepChunkRow) (row0 rowF : DeepChunkRow)
    (h : ∀ x ∈ old, x.chunk_index ≠ rowF.chunk_index)
    (h0 : row0.chunk_index = rowF.chunk_index) :
    setDeepRow (old ++ [row0]) rowF = old ++ [rowF] := by
  unfold setDeepRow
  rw [List.map_append]
  congr 1
  · induction old with
    | nil => rfl
    | cons x xs ih =>
      simp only [List.map_cons]
      rw [if_neg (h x (List.mem_cons_self x xs))]
      rw [ih fun y hy => h y (List.mem_cons_of_mem x hy)]
  · simp [h0]

theorem deepLoop_rows (eo ro : Nat → LLMOutcome)
    (parse : String → Option String) (dumps : DeepExtraction → List Char) :
    ∀ (chunks : List (List Char)) (i : Nat) (acc : List Char)
      (alls : List DeepExtraction) (job : DeepJob),
      (∀ r ∈ job.chunk_results, r.chunk_index < i ∧ r.status = "completed" ∧
        (∀ m, eo r.chunk_index = LLMOutcome.err m →
          r.extraction_result = some (DeepExtraction.errorResult m))) →
      ∀ r ∈ (deepLoop eo ro parse dumps chunks i acc alls
          job).1.chunk_results,
        r.chunk_index < i + chunks.length ∧ r.status = "completed" ∧
        (∀ m, eo r.chunk_index = LLMOutcome.err m →
          r.extraction_result = some (DeepExtraction.errorResult m)) := by
  intro chunks
  induction chunks with
  | nil =>
    intro i acc alls job hinv r hr
    rw [deepLoop] at hr
    obtain ⟨h1, h2, h3⟩ := hinv r hr
    exact ⟨by simpa using h1, h2, h3⟩
  | cons chunk rest ih =>
    intro i acc alls job hinv r hr
    rw [deepLoop] at hr
    have hold : ∀ x ∈ job.chunk_results, x.chunk_index ≠ i :=
      fun x hx hcon => by have := (hinv x hx).1; omega
    have hset : setDeepRow (job.chunk_results ++
        [(⟨i, "processing", none, none⟩ : DeepChunkRow)])
        { (⟨i, "processing", none, none⟩ : DeepChunkRow) with
            extraction_result := some (extract_chunk parse (eo i)),
            refined_result := some (if acc ≠ [] ∧ i > 0 then
              refine_with_context parse (ro i)
                (extract_chunk parse (eo i))
              else extract_chunk parse (eo i)),
            status := "completed" } =
        job.chunk_results ++
        [{ (⟨i, "processing", none, none⟩ : DeepChunkRow) with
            extraction_result := some (extract_chunk parse (eo i)),
            refined_result := some (if acc ≠ [] ∧ i > 0 then
              refine_with_context parse (ro i)
                (extract_chunk parse (eo i))
              else extract_chunk parse (eo i)),
            status := "completed" }] :=
      setDeepRow_append _ _ _ hold rfl
    simp only [hset] at hr
    have H := ih (i + 1) (build_accumulated_context acc
        (dumps (if acc ≠ [] ∧ i > 0 then
          refine_with_context parse (ro i) (extract_chunk parse (eo i))
          else extract_chunk parse (eo i))) (i + 1))
      (alls ++ [if acc ≠ [] ∧ i > 0 then
        refine_with_context parse (ro i) (extract_chunk parse (eo i))
        else extract_chunk parse (eo i)]) _ ?_ r hr
    · obtain ⟨h1, h2, h3⟩ := H
      refine ⟨?_, h2, h3⟩
      simp only [List.length_cons]
      omega
    · intro x hx
      simp only [List.mem_append, List.mem_singleton] at hx
      rcases hx with hx | rfl
      · obtain ⟨h1, h2, h3⟩ := hinv x hx
        exact ⟨by omega, h2, h3⟩
      · refine ⟨Nat.lt_succ_self i, rfl, ?_⟩
        intro m hm
        show some (extract_chunk parse (eo i)) = _
        rw [hm]
        rfl

theorem claim_C10 (eo ro : Nat → LLMOutcome) (co : LLMOutcome)
    (parse : String → Option String) (dumps : DeepExtraction → List Char)
    (masked_chat_text : Option (List Char)) (job0 : DeepJob)
    (hempty : job0.chunk_results = []) :
    ∀ r ∈ (process_job eo ro co parse dumps masked_chat_text
        job0).chunk_results,
      r.status = "completed" ∧ r.status ≠ "failed" ∧
      (∀ m, eo r.chunk_index = LLMOutcome.err m →
        r.extraction_result = some (DeepExtraction.errorResult m)) := by
  intro r hr
  rcases masked_chat_text with _ | text
  · simp [process_job, hempty] at hr
  · by_cases ht : text = []
    · simp [process_job, ht, hempty] at hr
    · have hr' : r ∈ (deepLoop eo ro parse dumps (split_into_chunks text)
          0 [] []
          { job0 with
              status := "processing",
              total_chunks := (split_into_chunks text).length
            }).1.chunk_results := by
        simpa [process_job, ht] using hr
      have H := deepLoop_rows eo ro parse dumps (split_into_chunks text)
        0 [] [] _ (by intro x hx; rw [hempty] at hx; cases hx) r hr'
      refine ⟨H.2.1, ?_, H.2.2⟩
      rw [H.2.1]
      decide

theorem claim_C10_witness :
    (⟨0, "completed", some (DeepExtraction.errorResult "bad"),
      some (DeepExtraction.errorResult "bad")⟩ : DeepChunkRow).status =
      "completed" :=
  (claim_C10 (fun _ => LLMOutcome.err "bad") (fun _ => LLMOutcome.ok "y")
    (LLMOutcome.ok "c") (fun _ => none) (fun _ => [])
    (some ['o', 'i']) freshDeepJob rfl _ (by decide)).1

theorem pySplit_ne_nil (sep : Char) : ∀ l : List Char, pySplit sep l ≠ [] := by
  intro l
  cases l with
  | nil => simp [pySplit]
  | cons c rest =>
    rw [pySplit]
    split
    · simp
    · split <;> simp

theorem pySplit_no_sep (sep : Char) :
    ∀ l : List Char, sep ∉ l → pySplit sep l = [l] := by
  intro l
  induction l with
  | nil => intro _; rfl
  | cons c rest ih =>
    intro h
    rw [pySplit]
    rw [if_neg fun hc => h (by rw [← hc]; exact List.mem_cons_self c rest)]
    rw [ih fun hm => h (List.mem_cons_of_mem c hm)]

theorem pySplit_append_no_sep (sep : Char) :
    ∀ (xs l : List Char) (h : List Char) (t : List (List Char)),
      sep ∉ xs → pySplit sep l = h :: t →
      pySplit sep (xs ++ l) = (xs ++ h) :: t := by
  intro xs
  induction xs with
  | nil =>
    intro l h t _ hl
    simpa using hl
  | cons x xs' ih =>
    intro l h t hx hl
    rw [List.cons_append, pySplit]
    rw [if_neg fun hc => hx (by rw [← hc]; exact List.mem_cons_self x xs')]
    rw [ih l h t (fun hm => hx (List.mem_cons_of_mem x hm)) hl]
    rfl

theorem pyJoin_cons_of_ne_nil (a : List Char) (bs : List (List Char))
    (h : bs ≠ []) : pyJoin (a :: bs) = a ++ '\n' :: pyJoin bs := by
  cases bs with
  | nil => exact absurd rfl h
  | cons b bs' => rfl

theorem pyJoin_pySplit : ∀ l : List Char, pyJoin (pySplit '\n' l) = l := by
  intro l
  induction l with
  | nil => rfl
  | cons c rest ih =>
    rw [pySplit]
    by_cases hc : c = '\n'
    · rw [if_pos hc]
      rw [pyJoin_cons_of_ne_nil _ _ (pySplit_ne_nil '\n' rest)]
      rw [ih, hc]
      rfl
    · rw [if_neg hc]
      obtain ⟨h, t, heq⟩ :=
        List.exists_cons_of_ne_nil (pySplit_ne_nil '\n' rest)
      rw [heq]
      have : pyJoin ((c :: h) :: t) = c :: pyJoin (h :: t) := by
        cases t with
        | nil => rfl
        | cons u us => rfl
      rw [this, ← heq, ih]

theorem pyJoin_append (xs ys : List (List Char)) (hxs : xs ≠ [])
    (hys : ys ≠ []) :
    pyJoin (xs ++ ys) = pyJoin xs ++ '\n' :: pyJoin ys := by
  induction xs with
  | nil => exact absurd rfl hxs
  | cons x xs' ih =>
    cases hxs' : xs' with
    | nil =>
      subst hxs'
      show pyJoin (x :: ys) = pyJoin [x] ++ '\n' :: pyJoin ys
      rw [pyJoin_cons_of_ne_nil x ys hys]
      rfl
    | cons y ys' =>
      subst hxs'
      rw [List.cons_append]
      rw [pyJoin_cons_of_ne_nil x ((y :: ys') ++ ys) (by simp)]
      rw [ih (by simp)]
      rw [pyJoin_cons_of_ne_nil x (y :: ys') (by simp)]
      rw [List.append_assoc]
      rfl

theorem splitGo_ne_nil :
    ∀ (lines current : List (List Char)) (size : Nat),
      current ≠ [] → splitGo lines current size ≠ [] := by
  intro lines
  induction lines with
  | nil =>
    intro current size h
    rw [splitGo, if_pos h]
    simp
  | cons line rest ih =>
    intro current size h
    rw [splitGo]
    split
    · simp
    · exact ih _ _ (by simp)

theorem splitGo_join :
    ∀ (lines current : List (List Char)) (size : Nat),
      pyJoin (splitGo lines current size) = pyJoin (current ++ lines) := by
  intro lines
  induction lines with
  | nil =>
    intro current size
    rw [splitGo]
    split
    · rw [List.append_nil]
      cases current with
      | nil => rfl
      | cons c cs => rfl
    · rename_i h
      rw [not_not.mp h]
      rfl
  | cons line rest ih =>
    intro current size
    rw [splitGo]
    split
    · rename_i hcond
      rw [pyJoin_cons_of_ne_nil _ _ (splitGo_ne_nil rest [line] _ (by simp))]
      rw [ih [line] line.length]
      rw [pyJoin_append current (line :: rest) hcond.2 (by simp)]
      rfl
    · rw [ih (current ++ [line]) (size + line.length + 1)]
      rw [List.append_assoc]
      rfl

theorem claim_C3_amended :
    (∀ (text : List Char) (model : String),
      PlanContract (get_chunk_settings model).size
        (get_chunk_settings model).overlap text.length
        (create_chunks text model)) ∧
    (∀ text : List Char, pyJoin (split_into_chunks text) = text) := by
  constructor
  · exact create_chunks_contract
  · intro text
    unfold split_into_chunks
    rw [splitGo_join (pySplit '\n' text) [] 0]
    rw [List.nil_append]
    exact pyJoin_pySplit text

theorem claim_C3_amended_witness :
    create_chunks ['h'] "gpt-4o" ≠ [] ∧
    pyJoin (split_into_chunks ['h', '\n', 'i']) = ['h', '\n', 'i'] :=
  ⟨(claim_C3_amended.1 ['h'] "gpt-4o").1,
    claim_C3_amended.2 ['h', '\n', 'i']⟩

theorem claim_C3_counterexample :
    split_into_chunks (List.replicate 25000 'a' ++ '\n' :: ['b']) =
      [List.replicate 25000 'a', ['b']] ∧
    '\n' ∈ (List.replicate 25000 'a' ++ '\n' :: ['b']) ∧
    '\n' ∉ List.replicate 25000 'a' ∧
    '\n' ∉ (['b'] : List Char) := by
  have hA : ('\n') ∉ List.replicate 25000 'a' := by
    intro h
    exact absurd (List.eq_of_mem_replicate h) (by decide)
  have hlen : (List.replicate 25000 'a').length = 25000 :=
    List.length_replicate 25000 'a'
  have htail : pySplit '\n' ('\n' :: ['b']) = [] :: [['b']] := by
    rw [pySplit]
    rw [if_pos rfl]
    rw [pySplit_no_sep '\n' ['b'] (by decide)]
  have hsplit : pySplit '\n' (List.replicate 25000 'a' ++ '\n' :: ['b']) =
      [List.replicate 25000 'a', ['b']] := by
    rw [pySplit_append_no_sep '\n' (List.replicate 25000 'a')
      ('\n' :: ['b']) [] [['b']] hA htail]
    rw [List.append_nil]
  refine ⟨?_, ?_, hA, by decide⟩
  · unfold split_into_chunks
    rw [hsplit]
    rw [splitGo]
    rw [if_neg fun h => h.2 rfl]
    rw [show ([] : List (List Char)) ++ [List.replicate 25000 'a'] =
      [List.replicate 25000 'a'] from rfl]
    rw [splitGo]
    rw [if_pos ⟨by rw [hlen]; decide, List.cons_ne_nil _ _⟩]
    rw [splitGo]
    rw [if_pos (List.cons_ne_nil _ _)]
    rfl
  · exact List.mem_append.mpr (Or.inr (List.mem_cons_self _ _))

end PII
